import Mathlib

/-!
# Verification of the GenApi request-processing pipeline

A shallow embedding of `src/GenApi.js` (the `genapi` repository).  JavaScript
values flowing through the pipeline are modelled by the inductive type `JsVal`
(JSON values plus `undefined`, since several functions in the source produce or
test `undefined`).  JavaScript numbers are modelled as integers: every number
the pipeline itself produces is `0`, and no claim depends on float behaviour.
Strings are Lean `String`s.  Objects are association lists in insertion order,
mirroring JS object key order for the string keys the pipeline creates;
mutation is modelled by returning the updated value, which is faithful because
every value merged by the pipeline is a tree (fresh objects from
`generateBlankJson` / `JSON.parse`), never a DAG.

External collaborators (the langchain model client, `JSON.parse`, the compiled
ajv validator) are oracle parameters of the model, exactly as the code consumes
them: a model call is `Nat → JsVal → Except String String` (attempt index and
request payload in, raw text or failure out), `JSON.parse` is
`String → Except String JsVal`, and a compiled ajv schema is a boolean
predicate `JsVal → JsVal → Bool`.
-/

/-- A JavaScript runtime value as used by `GenApi.js`: the JSON values plus
`undefined`. -/
inductive JsVal where
  | null : JsVal
  | undef : JsVal
  | bool : Bool → JsVal
  | num : Int → JsVal
  | str : String → JsVal
  | arr : List JsVal → JsVal
  | obj : List (String × JsVal) → JsVal
  deriving Repr

namespace JsVal

/- Boolean equality on `JsVal` (structural; written by hand because `JsVal` is
a nested inductive). -/
mutual
def jsEq : JsVal → JsVal → Bool
  | .null, .null => true
  | .undef, .undef => true
  | .bool a, .bool b => a == b
  | .num a, .num b => a == b
  | .str a, .str b => a == b
  | .arr xs, .arr ys => jsEqList xs ys
  | .obj fs, .obj gs => jsEqFields fs gs
  | _, _ => false
def jsEqList : List JsVal → List JsVal → Bool
  | [], [] => true
  | x :: xs, y :: ys => jsEq x y && jsEqList xs ys
  | _, _ => false
def jsEqFields : List (String × JsVal) → List (String × JsVal) → Bool
  | [], [] => true
  | p :: ps, q :: qs => p.1 == q.1 && jsEq p.2 q.2 && jsEqFields ps qs
  | _, _ => false
end

mutual
theorem jsEq_iff : ∀ (a b : JsVal), jsEq a b = true ↔ a = b
  | .null, b => by cases b <;> simp [jsEq]
  | .undef, b => by cases b <;> simp [jsEq]
  | .bool x, b => by cases b <;> simp [jsEq]
  | .num x, b => by cases b <;> simp [jsEq]
  | .str x, b => by cases b <;> simp [jsEq]
  | .arr xs, b => by
      cases b <;> simp [jsEq]
      exact jsEqList_iff xs _
  | .obj fs, b => by
      cases b <;> simp [jsEq]
      exact jsEqFields_iff fs _
theorem jsEqList_iff : ∀ (xs ys : List JsVal), jsEqList xs ys = true ↔ xs = ys
  | [], ys => by cases ys <;> simp [jsEqList]
  | x :: xs, ys => by
      cases ys with
      | nil => simp [jsEqList]
      | cons y ys =>
        simp only [jsEqList, Bool.and_eq_true, jsEq_iff, jsEqList_iff, List.cons.injEq]
theorem jsEqFields_iff : ∀ (fs gs : List (String × JsVal)), jsEqFields fs gs = true ↔ fs = gs
  | [], gs => by cases gs <;> simp [jsEqFields]
  | p :: fs, gs => by
      cases gs with
      | nil => simp [jsEqFields]
      | cons q gs =>
        simp only [jsEqFields, Bool.and_eq_true, beq_iff_eq, jsEq_iff, jsEqFields_iff,
          List.cons.injEq]
        constructor
        · rintro ⟨⟨h1, h2⟩, h3⟩
          exact ⟨Prod.ext h1 h2, h3⟩
        · rintro ⟨h1, h3⟩
          cases p; cases q
          simp_all
end

instance : DecidableEq JsVal := fun a b => decidable_of_iff _ (jsEq_iff a b)

instance : BEq JsVal := ⟨jsEq⟩

/- Weight measure used for well-founded recursion over `JsVal`. -/
mutual
def jsWeight : JsVal → Nat
  | .obj fs => 1 + fieldsWeight fs
  | .arr xs => 1 + listWeight xs
  | _ => 1
def listWeight : List JsVal → Nat
  | [] => 0
  | x :: xs => jsWeight x + listWeight xs
def fieldsWeight : List (String × JsVal) → Nat
  | [] => 0
  | p :: fs => jsWeight p.2 + fieldsWeight fs
end

theorem jsWeight_pos (v : JsVal) : 0 < jsWeight v := by
  cases v <;> simp only [jsWeight] <;> omega

theorem jsWeight_mem_fields {k : String} {w : JsVal} {fs : List (String × JsVal)}
    (h : (k, w) ∈ fs) : jsWeight w ≤ fieldsWeight fs := by
  induction fs with
  | nil => cases h
  | cons p rest ih =>
    rcases List.mem_cons.1 h with h' | h'
    · rw [← h']; simp only [fieldsWeight]; omega
    · have := ih h'; simp only [fieldsWeight]; omega

theorem jsWeight_mem_list {w : JsVal} {xs : List JsVal}
    (h : w ∈ xs) : jsWeight w ≤ listWeight xs := by
  induction xs with
  | nil => cases h
  | cons x rest ih =>
    rcases List.mem_cons.1 h with h' | h'
    · subst h'; simp only [listWeight]; omega
    · have := ih h'; simp only [listWeight]; omega

/-- JavaScript truthiness (`NaN` does not arise in the pipeline). -/
def truthy : JsVal → Bool
  | .null => false
  | .undef => false
  | .bool b => b
  | .num n => n != 0
  | .str s => s != ""
  | .arr _ => true
  | .obj _ => true

/-- `typeof v === "object"` (true for objects, arrays and `null`). -/
def isObjType : JsVal → Bool
  | .obj _ => true
  | .arr _ => true
  | .null => true
  | _ => false

/-- A truthy value of object type, i.e. an object or an array: exactly the
values for which `source[key] && typeof source[key] === "object"` holds. -/
def isComposite : JsVal → Bool
  | .obj _ => true
  | .arr _ => true
  | _ => false

/-- `v === null || v === undefined` (the values `?.` short-circuits on, and the
values property access throws on). -/
def isNullish : JsVal → Bool
  | .null => true
  | .undef => true
  | _ => false

/-- Whether the value is a string (for `typeof x === "string"` tests). -/
def isStr : JsVal → Bool
  | .str _ => true
  | _ => false

end JsVal

/-! ## Decimal index keys

JavaScript exposes array elements (and string characters) through decimal
string keys `"0"`, `"1"`, …  `natKey` renders a natural number the way JS
does; `keyVal` is a left inverse used to prove `natKey` injective. -/

def digitChar (d : Nat) : Char := Char.ofNat (48 + d)

def natKey (n : Nat) : String :=
  if n = 0 then "0" else String.mk (((Nat.digits 10 n).map digitChar).reverse)

def keyVal (l : List Char) : Nat := l.foldl (fun a c => 10 * a + (c.toNat - 48)) 0

theorem digitChar_toNat {d : Nat} (h : d < 10) : (digitChar d).toNat = 48 + d := by
  interval_cases d <;> decide

theorem keyVal_digits (ds : List Nat) (h : ∀ d ∈ ds, d < 10) :
    keyVal ((ds.map digitChar).reverse) = Nat.ofDigits 10 ds := by
  induction ds with
  | nil => simp [keyVal, Nat.ofDigits]
  | cons d rest ih =>
    have hd : d < 10 := h d (by simp)
    have hrest : ∀ d' ∈ rest, d' < 10 := fun d' h' => h d' (by simp [h'])
    have hsplit : ((d :: rest).map digitChar).reverse
        = (rest.map digitChar).reverse ++ [digitChar d] := by simp
    have ihv := ih hrest
    unfold keyVal at ihv ⊢
    rw [hsplit, List.foldl_append, ihv]
    simp only [List.foldl_cons, List.foldl_nil]
    rw [digitChar_toNat hd, Nat.ofDigits_cons]
    push_cast
    omega

theorem keyVal_natKey (n : Nat) : keyVal (natKey n).data = n := by
  by_cases h : n = 0
  · subst h; decide
  · unfold natKey
    rw [if_neg h]
    have hb : ∀ d ∈ Nat.digits 10 n, d < 10 :=
      fun d hd => Nat.digits_lt_base (by norm_num) hd
    show keyVal (((Nat.digits 10 n).map digitChar).reverse) = n
    rw [keyVal_digits _ hb]
    exact_mod_cast Nat.ofDigits_digits 10 n

theorem natKey_injective : Function.Injective natKey := by
  intro a b h
  have := keyVal_natKey a
  rw [h, keyVal_natKey] at this
  omega

theorem natKey_zero : natKey 0 = "0" := rfl

theorem natKey_one : natKey 1 = "1" := by
  unfold natKey
  norm_num
  decide

theorem natKey_two : natKey 2 = "2" := by
  unfold natKey
  norm_num
  decide

/-! ## Property enumeration, reads and writes -/

open JsVal

/-- Entries of a string under JS `Object.entries`: one single-character string
per index key. -/
def stringEntries (i : Nat) : List Char → List (String × JsVal)
  | [] => []
  | c :: cs => (natKey i, JsVal.str (String.mk [c])) :: stringEntries (i + 1) cs

/-- Array elements paired with their decimal index keys, starting at `i`. -/
def indexPairs (i : Nat) : List JsVal → List (String × JsVal)
  | [] => []
  | x :: xs => (natKey i, x) :: indexPairs (i + 1) xs

/-- JS `Object.entries(v)` for non-nullish `v`: own enumerable entries.
Objects yield their fields in insertion order, arrays their elements under
decimal index keys, strings their characters; numbers and booleans have none.
(`Object.entries` of `null`/`undefined` throws; `deepMerge` below guards that
case before enumerating, and the other call site guards with `|| {}`.) -/
def jsEntries : JsVal → List (String × JsVal)
  | .obj fs => fs
  | .arr xs => indexPairs 0 xs
  | .str s => stringEntries 0 s.data
  | _ => []

/-- Property read `v[k]` on a non-nullish receiver: `undefined` when absent.
Array `length` and other non-element properties are not modelled; no claim
reads them. -/
def jsGet (v : JsVal) (k : String) : JsVal :=
  match v with
  | .obj fs => (List.lookup k fs).getD .undef
  | .arr xs => (List.lookup k (indexPairs 0 xs)).getD .undef
  | .str s => (List.lookup k (stringEntries 0 s.data)).getD .undef
  | _ => (.undef)

/-- Property read `v[k]` where a nullish receiver throws a `TypeError`, as in
JS. -/
def jsGetE (v : JsVal) (k : String) : Except String JsVal :=
  if v.isNullish then
    .error ("TypeError: cannot read properties of null or undefined (reading " ++ k ++ ")")
  else .ok (jsGet v k)

/-- Update the field `k` of an association list in place, or append it. -/
def setField : List (String × JsVal) → String → JsVal → List (String × JsVal)
  | [], k, v => [(k, v)]
  | p :: rest, k, v => if p.1 = k then (k, v) :: rest else p :: setField rest k v

/-- Array write under a string key: sets the element whose decimal index key
matches, appends at key `length`.  JS additionally supports sparse writes past
the end and non-index keys (stored as non-element properties, invisible to
JSON serialization and array equality); neither occurs in the merges the
claims exercise, so they leave the modelled elements unchanged. -/
def setArr (xs : List JsVal) (k : String) (v : JsVal) : List JsVal :=
  match (List.range (xs.length + 1)).find? (fun i => natKey i == k) with
  | some i => if i < xs.length then xs.set i v else xs ++ [v]
  | none => xs

/-- Property write `t[k] = v` in strict mode (ES modules): succeeds on objects
and arrays, throws `TypeError` on primitives, `null` and `undefined`. -/
def jsSet (t : JsVal) (k : String) (v : JsVal) : Except String JsVal :=
  match t with
  | .obj fs => .ok (.obj (setField fs k v))
  | .arr xs => .ok (.arr (setArr xs k v))
  | .null => .error "TypeError: Cannot set properties of null"
  | .undef => .error "TypeError: Cannot set properties of undefined"
  | _ => .error ("TypeError: Cannot create property " ++ k ++ " on a primitive")

/-- The spread copy `{...data}` used by `modifyQueryForTailOff`: a fresh
object holding the own enumerable entries of `data`. -/
def shallowCopy (v : JsVal) : JsVal := .obj (jsEntries v)

/-! ## Response Normalizer: `removeMarkdownCodeMarkup`

Models the JS regex replacement
`str.replace(/OPEN_FENCE[\s\S]*?\nCLOSE_FENCE|TICK(.*?)TICK/g, (m, g1) => g1 ? g1 : "").trim()`
(where the fences are triple backticks and TICK a single backtick):
the scan moves left to right; at each position the fenced-block alternative is
tried first (no capture group, so a matched block is replaced by the empty
string), then the inline alternative (whose captured group, possibly empty,
replaces the match); on no match the character is kept. -/

def btick : Char := Char.ofNat 96

/-- Finds the first occurrence of newline-plus-closing-fence (the lazy
`[\s\S]*?\n` followed by three backticks) and returns the suffix after it. -/
def dropFence : List Char → Option (List Char)
  | [] => none
  | c :: rest =>
    if c = '\n' then
      match rest with
      | a :: b :: c3 :: r =>
        if a = btick ∧ b = btick ∧ c3 = btick then some r else dropFence rest
      | _ => dropFence rest
    else dropFence rest

/-- Matches the inline alternative after its opening backtick: the lazy `.`
group cannot cross a newline; returns the captured group and the suffix after
the closing backtick. -/
def takeInline : List Char → Option (List Char × List Char)
  | [] => none
  | c :: rest =>
    if c = btick then some ([], rest)
    else if c = '\n' then none
    else
      match takeInline rest with
      | some (g, r) => some (c :: g, r)
      | none => none

theorem dropFence_length {l r : List Char} (h : dropFence l = some r) :
    r.length < l.length := by
  induction l with
  | nil => simp [dropFence] at h
  | cons c rest ih =>
    unfold dropFence at h
    by_cases hc : c = '\n'
    · rw [if_pos hc] at h
      match hrest : rest with
      | [] => simp [hrest] at h; exact Nat.lt_succ_of_lt (ih h)
      | [a] => simp at h; exact Nat.lt_succ_of_lt (ih h)
      | [a, b] => simp at h; exact Nat.lt_succ_of_lt (ih h)
      | a :: b :: c3 :: r' =>
        simp only at h
        by_cases hb : a = btick ∧ b = btick ∧ c3 = btick
        · rw [if_pos hb] at h
          cases h
          simp [List.length_cons]
          omega
        · rw [if_neg hb] at h
          exact Nat.lt_succ_of_lt (ih h)
    · rw [if_neg hc] at h
      exact Nat.lt_succ_of_lt (ih h)

theorem takeInline_length {l : List Char} {g r : List Char}
    (h : takeInline l = some (g, r)) : r.length < l.length := by
  induction l generalizing g with
  | nil => simp [takeInline] at h
  | cons c rest ih =>
    unfold takeInline at h
    by_cases hc : c = btick
    · rw [if_pos hc] at h
      cases h
      simp
    · rw [if_neg hc] at h
      by_cases hn : c = '\n'
      · rw [if_pos hn] at h; cases h
      · rw [if_neg hn] at h
        match ht : takeInline rest with
        | some (g', r') =>
          rw [ht] at h
          cases h
          exact Nat.lt_succ_of_lt (ih ht)
        | none => rw [ht] at h; cases h

/-- One left-to-right pass of the replacement (before the final trim). -/
def stripCode (l : List Char) : List Char :=
  match l with
  | [] => []
  | c :: rest =>
    if c = btick then
      if rest.take 2 = [btick, btick] then
        match hf : dropFence (rest.drop 2) with
        | some r => stripCode r
        | none =>
          match hti : takeInline rest with
          | some (g, r) => g ++ stripCode r
          | none => c :: stripCode rest
      else
        match hti : takeInline rest with
        | some (g, r) => g ++ stripCode r
        | none => c :: stripCode rest
    else c :: stripCode rest
termination_by l.length
decreasing_by
  all_goals simp only [List.length_cons]
  all_goals first
    | (have h1 := dropFence_length hf
       rw [List.length_drop] at h1
       omega)
    | (have h1 := takeInline_length hti
       omega)
    | omega

/-- An ASCII approximation of the whitespace class trimmed by JS
`String.prototype.trim` (sufficient for the pipeline's inputs). -/
def isJsWS (c : Char) : Bool :=
  c = ' ' ∨ c = '\t' ∨ c = '\n' ∨ c = '\r' ∨ c = Char.ofNat 12 ∨ c = Char.ofNat 11

def trimChars (l : List Char) : List Char :=
  ((l.dropWhile isJsWS).reverse.dropWhile isJsWS).reverse

/-- `removeMarkdownCodeMarkup` from `GenApi.js`. -/
def removeMarkdownCodeMarkup (s : String) : String :=
  String.mk (trimChars (stripCode s.data))

/-! ## Weight lemmas for recursion through property values -/

theorem lookup_mem {k : String} {v : JsVal} {fs : List (String × JsVal)}
    (h : List.lookup k fs = some v) : (k, v) ∈ fs := by
  induction fs with
  | nil => simp [List.lookup] at h
  | cons p rest ih =>
    rw [List.lookup] at h
    cases hbeq : k == p.1 with
    | true =>
      rw [hbeq] at h
      cases h
      have : k = p.1 := by simpa using hbeq
      subst this
      exact List.mem_cons_self _ _
    | false =>
      rw [hbeq] at h
      exact List.mem_cons_of_mem _ (ih h)

theorem mem_indexPairs {p : String × JsVal} {i : Nat} {xs : List JsVal}
    (h : p ∈ indexPairs i xs) : p.2 ∈ xs := by
  induction xs generalizing i with
  | nil => cases h
  | cons x rest ih =>
    rcases List.mem_cons.1 h with h' | h'
    · rw [h']; left
    · exact List.mem_cons_of_mem _ (ih h')

theorem mem_stringEntries {p : String × JsVal} {i : Nat} {cs : List Char}
    (h : p ∈ stringEntries i cs) : ∃ c, p.2 = JsVal.str (String.mk [c]) := by
  induction cs generalizing i with
  | nil => cases h
  | cons c rest ih =>
    rcases List.mem_cons.1 h with h' | h'
    · exact ⟨c, by rw [h']⟩
    · exact ih h'

theorem fieldsWeight_indexPairs (i : Nat) (xs : List JsVal) :
    fieldsWeight (indexPairs i xs) = listWeight xs := by
  induction xs generalizing i with
  | nil => rfl
  | cons x rest ih => simp only [indexPairs, fieldsWeight, listWeight, ih]

/-- The entries of a composite value weigh strictly less than the value. -/
theorem fieldsWeight_jsEntries_lt {v : JsVal} (h : v.isComposite = true) :
    fieldsWeight (jsEntries v) < jsWeight v := by
  cases v with
  | obj fs => simp only [jsEntries, jsWeight]; omega
  | arr xs => simp only [jsEntries, jsWeight, fieldsWeight_indexPairs]; omega
  | _ => simp [JsVal.isComposite] at h

/-- A composite entry value weighs strictly less than the enumerated value. -/
theorem jsWeight_jsEntries_lt {p : String × JsVal} {v : JsVal}
    (hp : p ∈ jsEntries v) (hc : p.2.isComposite = true) :
    jsWeight p.2 < jsWeight v := by
  cases v with
  | obj fs =>
    have : jsWeight p.2 ≤ fieldsWeight fs := by
      obtain ⟨k, w⟩ := p
      exact jsWeight_mem_fields hp
    simp only [jsWeight]; omega
  | arr xs =>
    have := jsWeight_mem_list (mem_indexPairs hp)
    simp only [jsWeight]; omega
  | str s =>
    obtain ⟨c, hcs⟩ := mem_stringEntries hp
    rw [hcs] at hc
    simp [JsVal.isComposite] at hc
  | _ => cases hp

/-- A truthy property value weighs strictly less than the object it is read
from (a truthy read can only come from a present field). -/
theorem jsWeight_jsGet_lt {fs : List (String × JsVal)} {k : String}
    (h : (jsGet (JsVal.obj fs) k).truthy = true) :
    jsWeight (jsGet (JsVal.obj fs) k) < jsWeight (JsVal.obj fs) := by
  simp only [jsGet] at h ⊢
  match hl : List.lookup k fs with
  | none => rw [hl] at h; simp [Option.getD, JsVal.truthy] at h
  | some v =>
    rw [hl] at h
    have := jsWeight_mem_fields (lookup_mem hl)
    simp only [Option.getD, jsWeight]
    omega

/-! ## Shape Reconciler: `generateBlankJson` and `deepMerge` -/

/-- `generateBlankJson` from `GenApi.js`.

The source maps each declared property `value` to `generateBlankJson(value)`;
here the call is guarded with `isComposite` purely so the recursion is
well-founded — for a non-composite `value` the source call returns `undefined`
(its first line), which is what the guard's else branch produces, see
`generateBlankJson_guard` below.  `Object.entries(schema.properties || {})` is
the entry list of `properties` when truthy and `[]` otherwise. -/
def generateBlankJson (schema : JsVal) : JsVal :=
  match schema with
  | .obj fields =>
    match jsGet (.obj fields) "type" with
    | .str "object" =>
      if hp : (jsGet (.obj fields) "properties").truthy then
        .obj ((jsEntries (jsGet (.obj fields) "properties")).attach.map (fun p =>
          (p.1.1, if hc : p.1.2.isComposite then generateBlankJson p.1.2 else .undef)))
      else .obj []
    | .str "array" =>
      if hi : (jsGet (.obj fields) "items").truthy then
        .arr [generateBlankJson (jsGet (.obj fields) "items")]
      else .arr []
    | .str "string" => .str ""
    | .str "number" => .num 0
    | .str "integer" => .num 0
    | .str "boolean" => .bool false
    | _ => .null
  | .arr _ => .null
  | _ => .undef
termination_by jsWeight schema
decreasing_by
  · exact Nat.lt_trans (jsWeight_jsEntries_lt p.2 hc) (jsWeight_jsGet_lt hp)
  · exact jsWeight_jsGet_lt hi

/-- On non-composite schema nodes `generateBlankJson` returns `undefined`
(the source's `if (!schema || typeof schema !== "object") return;`). -/
theorem generateBlankJson_not_composite {v : JsVal} (h : v.isComposite = false) :
    generateBlankJson v = .undef := by
  match v with
  | .obj _ | .arr _ => simp [JsVal.isComposite] at h
  | .null | .undef | .bool _ | .num _ | .str _ => rw [generateBlankJson] <;> simp

/-- The well-foundedness guard in the `properties` map agrees with the
unguarded source expression (non-dependent form). -/
theorem generateBlankJson_guard_ite (v : JsVal) :
    (if v.isComposite = true then generateBlankJson v else JsVal.undef) = generateBlankJson v := by
  by_cases hc : v.isComposite = true
  · rw [if_pos hc]
  · rw [if_neg hc, generateBlankJson_not_composite (by simpa using hc)]

/-- The well-foundedness guard in the `properties` map agrees with the
unguarded source expression. -/
theorem generateBlankJson_guard (v : JsVal) :
    (if hc : v.isComposite then generateBlankJson v else JsVal.undef)
      = generateBlankJson v := by
  by_cases hc : v.isComposite = true
  · rw [dif_pos hc]
  · rw [dif_neg (by simp [hc]),
      generateBlankJson_not_composite (by simpa using hc)]

/-- `Array.isArray(source[key]) ? [] : {}` — the placeholder installed when
the target slot is falsy. -/
def emptyLike (v : JsVal) : JsVal :=
  match v with
  | .arr _ => .arr []
  | _ => .obj []

/-- The body of `deepMerge`'s `forEach` over the source's entries, threading
the mutated target.  The nested `deepMerge(target[key], source[key])` is
inlined as `mergeEntries t1 (jsEntries sv)` (equal to it for the composite
`sv` the branch guards, see `deepMerge_composite`). -/
def mergeEntries (t : JsVal) : List (String × JsVal) → Except String JsVal
  | [] => .ok t
  | (k, sv) :: rest =>
    if hcv : sv.isComposite then
      let t0 := jsGet t k
      let t1 := if t0.truthy then t0 else emptyLike sv
      match mergeEntries t1 (jsEntries sv) with
      | .error e => .error e
      | .ok merged =>
        match jsSet t k merged with
        | .error e => .error e
        | .ok t' => mergeEntries t' rest
    else
      match jsSet t k sv with
      | .error e => .error e
      | .ok t' => mergeEntries t' rest
termination_by l => fieldsWeight l
decreasing_by
  · have h1 := fieldsWeight_jsEntries_lt hcv
    simp only [fieldsWeight]
    omega
  · have := jsWeight_pos sv
    simp only [fieldsWeight]
    omega
  · have := jsWeight_pos sv
    simp only [fieldsWeight]
    omega

/-- `deepMerge` from `GenApi.js`.  `Object.keys(source)` throws a `TypeError`
on a nullish source; otherwise the entries are folded over the target.  The
returned value is the mutated target. -/
def deepMerge (target source : JsVal) : Except String JsVal :=
  if source.isNullish then
    .error "TypeError: Cannot convert undefined or null to object"
  else mergeEntries target (jsEntries source)

theorem deepMerge_composite {t s : JsVal} (h : s.isComposite = true) :
    deepMerge t s = mergeEntries t (jsEntries s) := by
  cases s <;> simp [JsVal.isComposite] at h <;> simp [deepMerge, JsVal.isNullish]

/-! ## The GenApi pipeline

`processRequest` from `GenApi.js`, with its external collaborators passed as
oracles.  The langchain prompt/LLM chain is consumed as "send the payload on
attempt `n`, get text or a failure back"; the system-prompt string built by
`translateRequestToLlmQuery` is a pure function of the slice and is not
inspected by any claim, but its construction runs `extractRelevantSpec`, whose
failure propagates before the `try` block — which the model below mirrors. -/

/-- `const MAX_RETRY_ATTEMPTS = 3`. -/
def MAX_RETRY_ATTEMPTS : Nat := 3

/-- The external capabilities consumed by the pipeline: the model chain
(indexed by attempt so each retry may answer differently), `JSON.parse`, and
the compiled-ajv validation predicate `validate(schema)(value)`. -/
structure Oracles where
  llm : Nat → JsVal → Except String String
  jsonParse : String → Except String JsVal
  ajvValidate : JsVal → JsVal → Bool

/-- The two per-instance hooks; `none` is the no-hook identity behaviour.
The post-response hook is typed `String → String` (the pipeline hands it the
normalized response text; every claim uses string-valued hooks). -/
structure Hooks where
  beforePromptHook : Option (JsVal → JsVal) := none
  afterResponseHook : Option (String → String) := none

/-- `jsToUpper methodCase()` for the ASCII method names the pipeline handles. -/
def jsToUpper (s : String) : String := String.mk (s.data.map Char.toUpper)

/-- The two validation kinds of `validateData`. -/
inductive VKind where
  | request
  | response
  deriving DecidableEq, Repr

def VKind.lower : VKind → String
  | .request => "request"
  | .response => "response"

/-- `type.charAt(0).toUpperCase() + type.slice(1)`. -/
def VKind.capital : VKind → String
  | .request => "Request"
  | .response => "Response"

/-- The `schemaPath` expression of `validateData` (also reused verbatim at the
reconcile step of `processRequest` for the response kind):
`spec.paths[path][method].requestBody?.content["application/json"].schema` or
`spec.paths[path][method].responses["200"]?.content["application/json"].schema`.
Property reads throw on nullish receivers; `?.` short-circuits the rest of the
chain to `undefined` on a nullish base. -/
def getSchemaPath (spec : JsVal) (path method : String) : VKind → Except String JsVal
  | .request => do
    let p ← jsGetE spec "paths"
    let ps ← jsGetE p path
    let ms ← jsGetE ps method
    let rb ← jsGetE ms "requestBody"
    if rb.isNullish then pure .undef
    else do
      let c ← jsGetE rb "content"
      let cj ← jsGetE c "application/json"
      jsGetE cj "schema"
  | .response => do
    let p ← jsGetE spec "paths"
    let ps ← jsGetE p path
    let ms ← jsGetE ps method
    let rs ← jsGetE ms "responses"
    let r200 ← jsGetE rs "200"
    if r200.isNullish then pure .undef
    else do
      let c ← jsGetE r200 "content"
      let cj ← jsGetE c "application/json"
      jsGetE cj "schema"

/-- `validateData` from `GenApi.js`.  In the pipeline it is only ever applied
to the (string) response text, so `data` is typed `String` and is always
parsed, matching the source's `typeof data === "string"` branch. -/
def validateData (O : Oracles) (spec : JsVal) (data : String) (path method : String)
    (k : VKind) : Except String Unit := do
  let schemaPath ← getSchemaPath spec path method k
  if ¬ schemaPath.truthy then
    throw ("Schema not found for " ++ k.lower ++ " in " ++ jsToUpper method ++ " " ++ path)
  else do
    let jsonData ← O.jsonParse data
    if O.ajvValidate schemaPath jsonData then pure ()
    else throw (k.capital ++ " schema validation error for " ++ jsToUpper method ++ " " ++ path)

/-- `extractRelevantSpec` from `GenApi.js`: the Operation Slice, or the
path-or-method-not-found error. -/
def extractRelevantSpec (spec : JsVal) (path method : String) : Except String JsVal := do
  let paths ← jsGetE spec "paths"
  let pathSpec ← jsGetE paths path
  let methodSpec ← if pathSpec.truthy then jsGetE pathSpec method else pure JsVal.null
  if ¬ methodSpec.truthy then
    throw ("Path or method not found in OpenAPI specification: " ++ path ++ ", " ++ method)
  else
    pure (.obj [("openapi", jsGet spec "openapi"), ("info", jsGet spec "info"),
      ("paths", .obj [(path, .obj [(method, methodSpec)])]),
      ("components", jsGet spec "components")])

/-- `modifyQueryForTailOff`: the shipped no-op simplification, a shallow copy
`{...data}` of the request data. -/
def modifyQueryForTailOff (data : JsVal) (_retryCount : Nat) : JsVal := shallowCopy data

/-- `this.afterResponseHook ? this.afterResponseHook(response) : response`. -/
def applyAfterHook (hooks : Hooks) (s : String) : String :=
  match hooks.afterResponseHook with
  | some g => g s
  | none => s

/-- The body of `processRequest`'s `try` block: invoke the chain, normalize,
apply the post-response hook, validate the response, rebuild the blank
skeleton from the response schema and merge the parsed response into it. -/
def attempt (O : Oracles) (hooks : Hooks) (spec : JsVal) (path method : String)
    (requestData : JsVal) (retryCount : Nat) : Except String JsVal := do
  let raw ← O.llm retryCount requestData
  let response := applyAfterHook hooks (removeMarkdownCodeMarkup raw)
  validateData O spec response path method .response
  let schema ← getSchemaPath spec path method .response
  let output := generateBlankJson schema
  let parsed ← O.jsonParse response
  deepMerge output parsed

/-- `this.beforePromptHook ? this.beforePromptHook(data) : data`. -/
def applyBeforeHook (hooks : Hooks) (data : JsVal) : JsVal :=
  match hooks.beforePromptHook with
  | some h => h data
  | none => data

/-- `typeof requestData === "string" ? JSON.parse(requestData) : requestData`. -/
def parsePayload (O : Oracles) (v : JsVal) : Except String JsVal :=
  match v with
  | .str s => O.jsonParse s
  | v => .ok v

/-- `processRequest` from `GenApi.js`.  Before the `try` block: the pre-prompt
hook, the `JSON.parse` of string payloads, and the prompt construction (which
runs `extractRelevantSpec`).  Inside the `try`: `attempt`.  The `catch`
retries with `modifyQueryForTailOff(requestData, retryCount)` while
`retryCount < MAX_RETRY_ATTEMPTS`, and otherwise rethrows the error of the
last attempt. -/
def processRequest (O : Oracles) (hooks : Hooks) (spec : JsVal) (path method : String)
    (data : JsVal) (retryCount : Nat) : Except String JsVal :=
  match parsePayload O (applyBeforeHook hooks data) with
  | .error e => .error e
  | .ok requestData =>
    match extractRelevantSpec spec path method with
    | .error e => .error e
    | .ok _slice =>
      match attempt O hooks spec path method requestData retryCount with
      | .ok v => .ok v
      | .error e =>
        if retryCount < MAX_RETRY_ATTEMPTS then
          processRequest O hooks spec path method
            (modifyQueryForTailOff requestData retryCount) (retryCount + 1)
        else .error e
termination_by MAX_RETRY_ATTEMPTS + 1 - retryCount
decreasing_by
  simp only [MAX_RETRY_ATTEMPTS] at *
  omega

/-! ## Value equality and well-formedness

`valueEq` is JSON value equality: structural, with object comparison
insensitive to key order (arrays stay ordered).  This is the "value-equal"
notion the specification's algebraic properties quantify over.  `wfVal` states
that a value is a JSON value as produced by `JSON.parse`: no `undefined`
inside, and object keys duplicate-free. -/

mutual
def valueEq : JsVal → JsVal → Bool
  | .null, .null => true
  | .undef, .undef => true
  | .bool a, .bool b => a == b
  | .num a, .num b => a == b
  | .str a, .str b => a == b
  | .arr xs, .arr ys => valueEqList xs ys
  | .obj fs, .obj gs =>
      (fs.map Prod.fst).all (fun k => (gs.map Prod.fst).contains k) &&
      ((gs.map Prod.fst).all (fun k => (fs.map Prod.fst).contains k) &&
       valueEqFields fs gs)
  | _, _ => false
def valueEqList : List JsVal → List JsVal → Bool
  | [], [] => true
  | x :: xs, y :: ys => valueEq x y && valueEqList xs ys
  | _, _ => false
def valueEqFields : List (String × JsVal) → List (String × JsVal) → Bool
  | [], _ => true
  | p :: fs, gs =>
      (match List.lookup p.1 gs with
       | some w => valueEq p.2 w
       | none => false) && valueEqFields fs gs
end

mutual
def wfVal : JsVal → Bool
  | .undef => false
  | .arr xs => wfList xs
  | .obj fs => decide ((fs.map Prod.fst).Nodup) && wfFields fs
  | _ => true
def wfList : List JsVal → Bool
  | [] => true
  | x :: xs => wfVal x && wfList xs
def wfFields : List (String × JsVal) → Bool
  | [] => true
  | p :: fs => wfVal p.2 && wfFields fs
end

/-! ## JSON Schema conformance and completeness

`conformsTo` renders the specification's "JSON value V conforming to schema"
for the keywords the Shape Reconciler models (`type`, `properties`, `items`):
declared properties, when present, must conform; absent properties are allowed
(nothing is `required`); array elements must conform to an object-valued
`items` schema.  `completeFor` is the strengthening introduced by the amended
blank/merge totality claim: every declared property is present (recursively),
and an array is non-empty whenever its schema declares (truthy) `items`.
`wfSchema` is schema well-formedness: `properties`, when truthy, is an object
with duplicate-free keys and well-formed sub-schemas, and an object-valued
`items` is well-formed. -/

/-- The declared properties of a schema node (empty unless `properties` is an
object). -/
def propsOf (S : JsVal) : List (String × JsVal) :=
  match jsGet S "properties" with
  | .obj fs => fs
  | _ => []

theorem jsWeight_mem_propsOf {p : String × JsVal} {fs : List (String × JsVal)}
    (hp : p ∈ propsOf (JsVal.obj fs)) : jsWeight p.2 < jsWeight (JsVal.obj fs) := by
  unfold propsOf at hp
  match hq : jsGet (JsVal.obj fs) "properties" with
  | .obj pfs =>
    rw [hq] at hp
    have h1 : jsWeight p.2 ≤ fieldsWeight pfs := by
      obtain ⟨k, w⟩ := p
      exact jsWeight_mem_fields hp
    have h2 : jsWeight (jsGet (JsVal.obj fs) "properties") < jsWeight (JsVal.obj fs) :=
      jsWeight_jsGet_lt (by rw [hq]; rfl)
    rw [hq] at h2
    simp only [jsWeight] at h2 ⊢
    omega
  | .null | .undef | .bool _ | .num _ | .str _ | .arr _ => rw [hq] at hp; cases hp

theorem jsWeight_items_lt {fs ifs : List (String × JsVal)}
    (hj : jsGet (JsVal.obj fs) "items" = JsVal.obj ifs) :
    jsWeight (JsVal.obj ifs) < jsWeight (JsVal.obj fs) := by
  have := @jsWeight_jsGet_lt fs "items" (by rw [hj]; rfl)
  rw [hj] at this
  exact this

/-- Standard JSON Schema conformance for `type` / `properties` / `items`. -/
def conformsTo (S v : JsVal) : Bool :=
  match S with
  | .obj Sfs =>
    let S := JsVal.obj Sfs
    match jsGet S "type" with
    | .str "object" =>
      match v with
      | .obj vfs => (propsOf S).attach.all (fun p =>
          match List.lookup p.1.1 vfs with
          | some w => conformsTo p.1.2 w
          | none => true)
      | _ => false
    | .str "array" =>
      match v with
      | .arr xs =>
        match hj : jsGet S "items" with
        | .obj ifs => xs.all (fun x => conformsTo (.obj ifs) x)
        | _ => true
      | _ => false
    | .str "string" => v.isStr
    | .str "number" => match v with | .num _ => true | _ => false
    | .str "integer" => match v with | .num _ => true | _ => false
    | .str "boolean" => match v with | .bool _ => true | _ => false
    | _ => true
  | _ => true
termination_by jsWeight S
decreasing_by
  · exact jsWeight_mem_propsOf p.2
  · exact jsWeight_items_lt hj

/-- Completeness of a value for a schema: every declared property present
(recursively), arrays non-empty whenever the schema declares truthy `items`,
and array elements complete for an object-valued `items` schema. -/
def completeFor (S v : JsVal) : Bool :=
  match S with
  | .obj Sfs =>
    let S := JsVal.obj Sfs
    match jsGet S "type" with
    | .str "object" =>
      match v with
      | .obj vfs => (propsOf S).attach.all (fun p =>
          match List.lookup p.1.1 vfs with
          | some w => completeFor p.1.2 w
          | none => false)
      | _ => false
    | .str "array" =>
      match v with
      | .arr xs =>
        (!(jsGet S "items").truthy || !xs.isEmpty) &&
        (match hj : jsGet S "items" with
         | .obj ifs => xs.all (fun x => completeFor (.obj ifs) x)
         | _ => true)
      | _ => false
    | _ => true
  | _ => true
termination_by jsWeight S
decreasing_by
  · exact jsWeight_mem_propsOf p.2
  · exact jsWeight_items_lt hj

/-- Schema well-formedness for the amended blank/merge totality claim. -/
def wfSchema (S : JsVal) : Bool :=
  match S with
  | .obj Sfs =>
    let S := JsVal.obj Sfs
    (match hp : jsGet S "properties" with
     | .obj pfs =>
        decide ((pfs.map Prod.fst).Nodup) && pfs.attach.all (fun p => wfSchema p.1.2)
     | v => !v.truthy) &&
    (match hj : jsGet S "items" with
     | .obj ifs => wfSchema (.obj ifs)
     | _ => true)
  | _ => true
termination_by jsWeight S
decreasing_by
  · refine jsWeight_mem_propsOf ?_
    unfold propsOf
    rw [hp]
    exact p.2
  · exact jsWeight_items_lt hj

/-! ## Association-list and write lemmas -/

theorem lookup_eq_none_iff {k : String} {fs : List (String × JsVal)} :
    List.lookup k fs = none ↔ k ∉ fs.map Prod.fst := by
  induction fs with
  | nil => simp [List.lookup]
  | cons p rest ih =>
    rw [List.lookup]
    cases hbeq : k == p.1 with
    | true =>
      have : k = p.1 := by simpa using hbeq
      simp [this]
    | false =>
      have : ¬ k = p.1 := by simpa using hbeq
      simp [this, ih]

theorem nodup_lookup_of_mem {k : String} {v : JsVal} {fs : List (String × JsVal)}
    (hnd : (fs.map Prod.fst).Nodup) (h : (k, v) ∈ fs) : List.lookup k fs = some v := by
  induction fs with
  | nil => cases h
  | cons p rest ih =>
    simp only [List.map_cons, List.nodup_cons] at hnd
    rcases List.mem_cons.1 h with h' | h'
    · rw [← h', List.lookup]
      simp
    · have hk : k ≠ p.1 := by
        intro hke
        apply hnd.1
        rw [← hke]
        exact List.mem_map.2 ⟨(k, v), h', rfl⟩
      rw [List.lookup]
      cases hbeq : k == p.1 with
      | true => exact absurd (by simpa using hbeq) hk
      | false => exact ih hnd.2 h'

theorem setField_lookup_self (fs : List (String × JsVal)) (k : String) (v : JsVal) :
    List.lookup k (setField fs k v) = some v := by
  induction fs with
  | nil => simp [setField, List.lookup]
  | cons p rest ih =>
    rw [setField]
    by_cases hp : p.1 = k
    · rw [if_pos hp, List.lookup]
      simp
    · rw [if_neg hp, List.lookup]
      cases hbeq : k == p.1 with
      | true => exact absurd (by simpa using hbeq) (fun (he : k = p.1) => hp he.symm)
      | false => exact ih

theorem setField_lookup_other {k' k : String} (h : k' ≠ k)
    (fs : List (String × JsVal)) (v : JsVal) :
    List.lookup k' (setField fs k v) = List.lookup k' fs := by
  induction fs with
  | nil =>
    simp only [setField, List.lookup]
    cases hbeq : k' == k with
    | true => exact absurd (by simpa using hbeq) h
    | false => rfl
  | cons p rest ih =>
    rw [setField]
    by_cases hp : p.1 = k
    · rw [if_pos hp, List.lookup, List.lookup]
      cases hbeq : k' == k with
      | true => exact absurd (by simpa using hbeq) h
      | false =>
        have : (k' == p.1) = false := by
          rw [hp]
          exact hbeq
        rw [this]
    · rw [if_neg hp, List.lookup, List.lookup]
      cases hbeq : k' == p.1 with
      | true => rfl
      | false => exact ih

theorem setField_append {k : String} {fs : List (String × JsVal)}
    (h : k ∉ fs.map Prod.fst) (v : JsVal) : setField fs k v = fs ++ [(k, v)] := by
  induction fs with
  | nil => rfl
  | cons p rest ih =>
    simp only [List.map_cons, List.mem_cons, not_or] at h
    rw [setField, if_neg (fun he => h.1 he.symm), ih h.2]
    rfl

theorem setField_keys_mem {k : String} {fs : List (String × JsVal)}
    (h : k ∈ fs.map Prod.fst) (v : JsVal) :
    (setField fs k v).map Prod.fst = fs.map Prod.fst := by
  induction fs with
  | nil => cases h
  | cons p rest ih =>
    rw [setField]
    by_cases hp : p.1 = k
    · rw [if_pos hp]
      simp [hp]
    · rw [if_neg hp]
      simp only [List.map_cons] at h ⊢
      rcases List.mem_cons.1 h with h' | h'
      · exact absurd h'.symm hp
      · rw [ih h']

theorem setField_keys_not_mem {k : String} {fs : List (String × JsVal)}
    (h : k ∉ fs.map Prod.fst) (v : JsVal) :
    (setField fs k v).map Prod.fst = fs.map Prod.fst ++ [k] := by
  rw [setField_append h v]
  simp

theorem setField_nodup {k : String} {fs : List (String × JsVal)} {v : JsVal}
    (h : (fs.map Prod.fst).Nodup) : ((setField fs k v).map Prod.fst).Nodup := by
  by_cases hk : k ∈ fs.map Prod.fst
  · rwa [setField_keys_mem hk]
  · rw [setField_keys_not_mem hk]
    simp [List.nodup_append, h, hk]

theorem setField_keys_sub {k' k : String} {fs : List (String × JsVal)} {v : JsVal}
    (h : k' ∈ (setField fs k v).map Prod.fst) : k' ∈ fs.map Prod.fst ∨ k' = k := by
  by_cases hk : k ∈ fs.map Prod.fst
  · rw [setField_keys_mem hk] at h
    exact Or.inl h
  · rw [setField_keys_not_mem hk] at h
    rcases List.mem_append.1 h with h' | h'
    · exact Or.inl h'
    · exact Or.inr (by simpa using h')

theorem setField_keys_sup {k' k : String} {fs : List (String × JsVal)} {v : JsVal}
    (h : k' ∈ fs.map Prod.fst ∨ k' = k) : k' ∈ (setField fs k v).map Prod.fst := by
  by_cases hk : k ∈ fs.map Prod.fst
  · rw [setField_keys_mem hk]
    rcases h with h | h
    · exact h
    · rwa [h]
  · rw [setField_keys_not_mem hk]
    rcases h with h | h
    · exact List.mem_append.2 (Or.inl h)
    · exact List.mem_append.2 (Or.inr (by simp [h]))

theorem find?_append {α : Type} (p : α → Bool) (l₁ l₂ : List α) :
    List.find? p (l₁ ++ l₂) = (List.find? p l₁).orElse (fun _ => List.find? p l₂) := by
  induction l₁ with
  | nil => simp
  | cons a rest ih =>
    by_cases ha : p a
    · simp [List.find?, ha]
    · simp only [List.cons_append, List.find?, Bool.not_eq_true] at *
      rw [ha] at *
      simpa using ih

theorem natKey_beq_iff {a b : Nat} : (natKey a == natKey b) = true ↔ a = b := by
  constructor
  · intro h
    exact natKey_injective (by simpa using h)
  · intro h
    simp [h]

theorem find?_range_natKey (n i : Nat) :
    (List.range n).find? (fun j => natKey j == natKey i) = if i < n then some i else none := by
  induction n with
  | zero => simp
  | succ n ih =>
    rw [List.range_succ, find?_append, ih]
    by_cases h : i < n
    · rw [if_pos h, if_pos (Nat.lt_succ_of_lt h)]
      rfl
    · rw [if_neg h]
      by_cases he : i = n
      · subst he
        simp
      · have : (natKey n == natKey i) = false := by
          rw [Bool.eq_false_iff]
          intro hc
          exact he (natKey_beq_iff.1 hc).symm
        rw [if_neg (by omega : ¬ i < n + 1)]
        simp [this]

theorem lookup_indexPairs_none {i j : Nat} {xs : List JsVal}
    (h : i < j ∨ j + xs.length ≤ i) :
    List.lookup (natKey i) (indexPairs j xs) = none := by
  induction xs generalizing j with
  | nil => rfl
  | cons x rest ih =>
    rw [indexPairs, List.lookup]
    have hij : i ≠ j := by
      simp only [List.length_cons] at h
      omega
    cases hbeq : natKey i == natKey j with
    | true => exact absurd (natKey_beq_iff.1 hbeq) hij
    | false =>
      refine ih ?_
      simp only [List.length_cons] at h
      omega

theorem setArr_append (xs : List JsVal) (v : JsVal) :
    setArr xs (natKey xs.length) v = xs ++ [v] := by
  rw [setArr, find?_range_natKey]
  rw [if_pos (Nat.lt_succ_self _)]
  simp

theorem setArr_set {i : Nat} {xs : List JsVal} (h : i < xs.length) (v : JsVal) :
    setArr xs (natKey i) v = xs.set i v := by
  rw [setArr, find?_range_natKey]
  rw [if_pos (by omega : i < xs.length + 1)]
  simp [h]

theorem indexPairs_append (j : Nat) (xs ys : List JsVal) :
    indexPairs j (xs ++ ys) = indexPairs j xs ++ indexPairs (j + xs.length) ys := by
  induction xs generalizing j with
  | nil => simp [indexPairs]
  | cons x rest ih =>
    simp only [List.cons_append, indexPairs, List.length_cons]
    rw [show List.append rest ys = rest ++ ys from rfl, ih (j + 1),
      show j + 1 + rest.length = j + (rest.length + 1) from by omega]

/-! ## `mergeEntries` unfolding equations -/

theorem mergeEntries_nil (t : JsVal) : mergeEntries t [] = .ok t := by
  rw [mergeEntries]

theorem mergeEntries_cons (t : JsVal) (k : String) (sv : JsVal)
    (rest : List (String × JsVal)) :
    mergeEntries t ((k, sv) :: rest) =
      if sv.isComposite then
        match mergeEntries (if (jsGet t k).truthy then jsGet t k else emptyLike sv)
            (jsEntries sv) with
        | .error e => .error e
        | .ok merged =>
          match jsSet t k merged with
          | .error e => .error e
          | .ok t' => mergeEntries t' rest
      else
        match jsSet t k sv with
        | .error e => .error e
        | .ok t' => mergeEntries t' rest := by
  rw [mergeEntries]
  by_cases hc : sv.isComposite
  · rw [dif_pos hc, if_pos hc]
  · rw [dif_neg hc, if_neg hc]

theorem jsGet_obj (fs : List (String × JsVal)) (k : String) :
    jsGet (.obj fs) k = (List.lookup k fs).getD .undef := rfl

theorem jsGet_setField_other {k' k : String} (h : k' ≠ k)
    (fs : List (String × JsVal)) (v : JsVal) :
    jsGet (.obj (setField fs k v)) k' = jsGet (.obj fs) k' := by
  rw [jsGet_obj, jsGet_obj, setField_lookup_other h]

theorem mem_keys_of_lookup {k : String} {v : JsVal} {fs : List (String × JsVal)}
    (h : List.lookup k fs = some v) : k ∈ fs.map Prod.fst := by
  by_contra hk
  rw [lookup_eq_none_iff.2 hk] at h
  cases h

/-- Shape and frame of a merge into an object target: on success the result is
an object, keys outside the merged entries read unchanged, key distinctness is
preserved, and every result key came from the target or the entries. -/
theorem mergeEntries_obj_frame :
    ∀ (l tfs : List (String × JsVal)) (r : JsVal),
      mergeEntries (.obj tfs) l = .ok r →
      ∃ rfs, r = .obj rfs ∧
        (∀ k, k ∉ l.map Prod.fst → List.lookup k rfs = List.lookup k tfs) ∧
        ((tfs.map Prod.fst).Nodup → (rfs.map Prod.fst).Nodup) ∧
        (∀ k, k ∈ rfs.map Prod.fst → k ∈ tfs.map Prod.fst ∨ k ∈ l.map Prod.fst) := by
  intro l
  induction l with
  | nil =>
    intro tfs r h
    rw [mergeEntries_nil] at h
    cases h
    exact ⟨tfs, rfl, fun _ _ => rfl, id, fun k hk => Or.inl hk⟩
  | cons p rest ih =>
    intro tfs r h
    obtain ⟨k0, sv0⟩ := p
    rw [mergeEntries_cons] at h
    by_cases hc : sv0.isComposite = true
    · rw [if_pos hc] at h
      cases hm : mergeEntries (if (jsGet (.obj tfs) k0).truthy then jsGet (.obj tfs) k0
          else emptyLike sv0) (jsEntries sv0) with
      | error e => rw [hm] at h; cases h
      | ok merged =>
        rw [hm] at h
        simp only [jsSet] at h
        obtain ⟨rfs, hr, hframe, hnd, hkeys⟩ := ih (setField tfs k0 merged) r h
        refine ⟨rfs, hr, ?_, ?_, ?_⟩
        · intro k hk
          simp only [List.map_cons, List.mem_cons, not_or] at hk
          rw [hframe k hk.2, setField_lookup_other hk.1]
        · intro hnd0
          exact hnd (setField_nodup hnd0)
        · intro k hk
          rcases hkeys k hk with hk' | hk'
          · rcases setField_keys_sub hk' with hk'' | hk''
            · exact Or.inl hk''
            · exact Or.inr (by simp [hk''])
          · exact Or.inr (by simp [hk'])
    · rw [if_neg hc] at h
      simp only [jsSet] at h
      obtain ⟨rfs, hr, hframe, hnd, hkeys⟩ := ih (setField tfs k0 sv0) r h
      refine ⟨rfs, hr, ?_, ?_, ?_⟩
      · intro k hk
        simp only [List.map_cons, List.mem_cons, not_or] at hk
        rw [hframe k hk.2, setField_lookup_other hk.1]
      · intro hnd0
        exact hnd (setField_nodup hnd0)
      · intro k hk
        rcases hkeys k hk with hk' | hk'
        · rcases setField_keys_sub hk' with hk'' | hk''
          · exact Or.inl hk''
          · exact Or.inr (by simp [hk''])
        · exact Or.inr (by simp [hk'])

/-- Per-key characterization of a merge into an object target, for an entry
list whose keys are distinct (as `Object.keys` guarantees) and whose composite
entries merge successfully: keys absent from the source read unchanged; a
composite source entry's slot holds the recursive merge into the existing
truthy slot value or, when the slot is falsy, into a fresh empty composite of
the source's kind; any other source entry overwrites its slot. -/
theorem mergeEntries_obj_char :
    ∀ (l tfs : List (String × JsVal)),
      (l.map Prod.fst).Nodup →
      (∀ k sv, (k, sv) ∈ l → sv.isComposite = true →
        ∃ w, mergeEntries (if (jsGet (.obj tfs) k).truthy then jsGet (.obj tfs) k
              else emptyLike sv) (jsEntries sv) = .ok w) →
      ∃ rfs, mergeEntries (.obj tfs) l = .ok (.obj rfs) ∧
        (∀ k, k ∉ l.map Prod.fst → List.lookup k rfs = List.lookup k tfs) ∧
        (∀ k sv, (k, sv) ∈ l → sv.isComposite = true →
          ∃ w, mergeEntries (if (jsGet (.obj tfs) k).truthy then jsGet (.obj tfs) k
                else emptyLike sv) (jsEntries sv) = .ok w ∧ List.lookup k rfs = some w) ∧
        (∀ k sv, (k, sv) ∈ l → sv.isComposite = false → List.lookup k rfs = some sv) ∧
        ((tfs.map Prod.fst).Nodup → (rfs.map Prod.fst).Nodup) ∧
        (∀ k, k ∈ rfs.map Prod.fst → k ∈ tfs.map Prod.fst ∨ k ∈ l.map Prod.fst) ∧
        (∀ k, k ∈ l.map Prod.fst → k ∈ rfs.map Prod.fst) := by
  intro l
  induction l with
  | nil =>
    intro tfs _ _
    exact ⟨tfs, mergeEntries_nil _, fun _ _ => rfl, fun k sv h => absurd h (List.not_mem_nil _),
      fun k sv h => absurd h (List.not_mem_nil _), id, fun k hk => Or.inl hk,
      fun k hk => absurd hk (List.not_mem_nil _)⟩
  | cons p rest ih =>
    intro tfs hnd hsucc
    obtain ⟨k0, sv0⟩ := p
    simp only [List.map_cons, List.nodup_cons] at hnd
    by_cases hc : sv0.isComposite = true
    · obtain ⟨w0, hw0⟩ := hsucc k0 sv0 (List.mem_cons_self _ _) hc
      have hset : jsSet (.obj tfs) k0 w0 = .ok (.obj (setField tfs k0 w0)) := rfl
      have hrw : ∀ k sv, (k, sv) ∈ rest → sv.isComposite = true →
          (if (jsGet (.obj (setField tfs k0 w0)) k).truthy
             then jsGet (.obj (setField tfs k0 w0)) k else emptyLike sv)
          = (if (jsGet (.obj tfs) k).truthy then jsGet (.obj tfs) k else emptyLike sv) := by
        intro k sv hk _
        have hne : k ≠ k0 := by
          intro he
          exact hnd.1 (he ▸ List.mem_map.2 ⟨(k, sv), hk, rfl⟩)
        rw [jsGet_setField_other hne]
      obtain ⟨rfs, hres, hframe, hcomp, hprim, hndr, hkeys, hkeys'⟩ :=
        ih (setField tfs k0 w0) hnd.2 (fun k sv hk hcv => by
          rw [hrw k sv hk hcv]
          exact hsucc k sv (List.mem_cons_of_mem _ hk) hcv)
      refine ⟨rfs, ?_, ?_, ?_, ?_, ?_, ?_, ?_⟩
      · simp only [mergeEntries_cons, if_pos hc, hw0, hset]
        exact hres
      · intro k hk
        simp only [List.map_cons, List.mem_cons, not_or] at hk
        rw [hframe k hk.2, setField_lookup_other hk.1]
      · intro k sv hk hcv
        rcases List.mem_cons.1 hk with he | hmem
        · cases he
          refine ⟨w0, hw0, ?_⟩
          rw [hframe k0 (by
            intro hmem
            exact hnd.1 hmem), setField_lookup_self]
        · obtain ⟨w, hw, hlk⟩ := hcomp k sv hmem hcv
          rw [hrw k sv hmem hcv] at hw
          exact ⟨w, hw, hlk⟩
      · intro k sv hk hcv
        rcases List.mem_cons.1 hk with he | hmem
        · cases he
          rw [hcv] at hc
          cases hc
        · exact hprim k sv hmem hcv
      · intro hnd0
        exact hndr (setField_nodup hnd0)
      · intro k hk
        rcases hkeys k hk with hk' | hk'
        · rcases setField_keys_sub hk' with hk'' | hk''
          · exact Or.inl hk''
          · exact Or.inr (by simp [hk''])
        · exact Or.inr (by simp [hk'])
      · intro k hk
        rcases List.mem_cons.1 hk with he | hmem
        · rw [show k = k0 by simpa using he]
          have : List.lookup k0 rfs = some w0 := by
            rw [hframe k0 (fun hmem => hnd.1 hmem), setField_lookup_self]
          exact mem_keys_of_lookup this
        · exact hkeys' k hmem
    · have hc' : sv0.isComposite = false := by simpa using hc
      have hset : jsSet (.obj tfs) k0 sv0 = .ok (.obj (setField tfs k0 sv0)) := rfl
      have hrw : ∀ k sv, (k, sv) ∈ rest → sv.isComposite = true →
          (if (jsGet (.obj (setField tfs k0 sv0)) k).truthy
             then jsGet (.obj (setField tfs k0 sv0)) k else emptyLike sv)
          = (if (jsGet (.obj tfs) k).truthy then jsGet (.obj tfs) k else emptyLike sv) := by
        intro k sv hk _
        have hne : k ≠ k0 := by
          intro he
          exact hnd.1 (he ▸ List.mem_map.2 ⟨(k, sv), hk, rfl⟩)
        rw [jsGet_setField_other hne]
      obtain ⟨rfs, hres, hframe, hcomp, hprim, hndr, hkeys, hkeys'⟩ :=
        ih (setField tfs k0 sv0) hnd.2 (fun k sv hk hcv => by
          rw [hrw k sv hk hcv]
          exact hsucc k sv (List.mem_cons_of_mem _ hk) hcv)
      refine ⟨rfs, ?_, ?_, ?_, ?_, ?_, ?_, ?_⟩
      · simp only [mergeEntries_cons, if_neg hc, hset]
        exact hres
      · intro k hk
        simp only [List.map_cons, List.mem_cons, not_or] at hk
        rw [hframe k hk.2, setField_lookup_other hk.1]
      · intro k sv hk hcv
        rcases List.mem_cons.1 hk with he | hmem
        · cases he
          rw [hcv] at hc'
          cases hc'
        · obtain ⟨w, hw, hlk⟩ := hcomp k sv hmem hcv
          rw [hrw k sv hmem hcv] at hw
          exact ⟨w, hw, hlk⟩
      · intro k sv hk hcv
        rcases List.mem_cons.1 hk with he | hmem
        · cases he
          rw [hframe k0 (fun hmem => hnd.1 hmem), setField_lookup_self]
        · exact hprim k sv hmem hcv
      · intro hnd0
        exact hndr (setField_nodup hnd0)
      · intro k hk
        rcases hkeys k hk with hk' | hk'
        · rcases setField_keys_sub hk' with hk'' | hk''
          · exact Or.inl hk''
          · exact Or.inr (by simp [hk''])
        · exact Or.inr (by simp [hk'])
      · intro k hk
        rcases List.mem_cons.1 hk with he | hmem
        · rw [show k = k0 by simpa using he]
          have : List.lookup k0 rfs = some sv0 := by
            rw [hframe k0 (fun hmem => hnd.1 hmem), setField_lookup_self]
          exact mem_keys_of_lookup this
        · exact hkeys' k hmem

theorem wfFields_mem {k : String} {w : JsVal} {fs : List (String × JsVal)}
    (hwf : wfFields fs = true) (h : (k, w) ∈ fs) : wfVal w = true := by
  induction fs with
  | nil => cases h
  | cons p rest ih =>
    simp only [wfFields, Bool.and_eq_true] at hwf
    rcases List.mem_cons.1 h with h' | h'
    · rw [← h'] at hwf
      exact hwf.1
    · exact ih hwf.2 h'

theorem wfList_mem {w : JsVal} {xs : List JsVal}
    (hwf : wfList xs = true) (h : w ∈ xs) : wfVal w = true := by
  induction xs with
  | nil => cases h
  | cons x rest ih =>
    simp only [wfList, Bool.and_eq_true] at hwf
    rcases List.mem_cons.1 h with h' | h'
    · rw [h']; exact hwf.1
    · exact ih hwf.2 h'

theorem jsGet_obj_not_mem {k : String} {fs : List (String × JsVal)}
    (h : k ∉ fs.map Prod.fst) : jsGet (.obj fs) k = .undef := by
  rw [jsGet_obj, lookup_eq_none_iff.2 h]
  rfl

theorem jsGet_arr_out {i : Nat} {xs : List JsVal} (h : xs.length ≤ i) :
    jsGet (.arr xs) (natKey i) = .undef := by
  show (List.lookup (natKey i) (indexPairs 0 xs)).getD .undef = .undef
  rw [lookup_indexPairs_none (Or.inr (by omega))]
  rfl

/-- Merging well-formed entries into an object they are key-disjoint from
appends them verbatim, provided each composite entry merges verbatim into an
empty composite (supplied as `hIH`). -/
theorem mergeEntries_obj_disjoint :
    ∀ (vfs acc : List (String × JsVal)),
      (∀ w, jsWeight w ≤ fieldsWeight vfs → wfVal w = true → w.isComposite = true →
        mergeEntries (emptyLike w) (jsEntries w) = .ok w) →
      (∀ k, k ∈ vfs.map Prod.fst → k ∉ acc.map Prod.fst) →
      (vfs.map Prod.fst).Nodup →
      wfFields vfs = true →
      mergeEntries (.obj acc) vfs = .ok (.obj (acc ++ vfs)) := by
  intro vfs
  induction vfs with
  | nil =>
    intro acc _ _ _ _
    rw [mergeEntries_nil, List.append_nil]
  | cons p rest ih =>
    intro acc hIH hdisj hnd hwf
    obtain ⟨k, sv⟩ := p
    simp only [List.map_cons, List.nodup_cons] at hnd
    simp only [wfFields, Bool.and_eq_true] at hwf
    have hk : k ∉ acc.map Prod.fst := hdisj k (by simp)
    have hget : jsGet (.obj acc) k = .undef := jsGet_obj_not_mem hk
    have hsetf : setField acc k sv = acc ++ [(k, sv)] := setField_append hk sv
    have hstep : ∀ (w : JsVal), jsSet (.obj acc) k w = .ok (.obj (setField acc k w)) :=
      fun w => rfl
    have htail : ∀ (x : JsVal),
        mergeEntries (.obj (acc ++ [(k, x)])) rest = .ok (.obj ((acc ++ [(k, x)]) ++ rest)) := by
      intro x
      refine ih (acc ++ [(k, x)]) ?_ ?_ hnd.2 hwf.2
      · intro w hw hwfw hcw
        refine hIH w ?_ hwfw hcw
        simp only [fieldsWeight] at *
        omega
      · intro k' hk'
        simp only [List.map_append, List.mem_append, not_or]
        refine ⟨hdisj k' (by simp [hk']), ?_⟩
        simp only [List.map_cons, List.map_nil, List.mem_singleton]
        intro he
        exact hnd.1 (he ▸ hk')
    have hif : ∀ (e : JsVal), (if (jsGet (.obj acc) k).truthy = true
        then jsGet (.obj acc) k else e) = e := by
      intro e
      rw [hget]
      rfl
    by_cases hc : sv.isComposite = true
    · have hinner : mergeEntries (emptyLike sv) (jsEntries sv) = .ok sv :=
        hIH sv (by simp only [fieldsWeight]; omega) hwf.1 hc
      simp only [mergeEntries_cons, if_pos hc, hif, hinner, hstep, hsetf]
      rw [htail sv]
      simp
    · simp only [mergeEntries_cons, if_neg hc, hstep, hsetf]
      rw [htail sv]
      simp

/-- Merging well-formed array entries past the end of an array target appends
them verbatim (same `hIH` side condition). -/
theorem mergeEntries_arr_disjoint :
    ∀ (xs acc : List JsVal),
      (∀ w, jsWeight w ≤ listWeight xs → wfVal w = true → w.isComposite = true →
        mergeEntries (emptyLike w) (jsEntries w) = .ok w) →
      wfList xs = true →
      mergeEntries (.arr acc) (indexPairs acc.length xs) = .ok (.arr (acc ++ xs)) := by
  intro xs
  induction xs with
  | nil =>
    intro acc _ _
    rw [indexPairs, mergeEntries_nil, List.append_nil]
  | cons x rest ih =>
    intro acc hIH hwf
    simp only [wfList, Bool.and_eq_true] at hwf
    have hget : jsGet (.arr acc) (natKey acc.length) = .undef := jsGet_arr_out le_rfl
    have hstep : ∀ (w : JsVal),
        jsSet (.arr acc) (natKey acc.length) w = .ok (.arr (acc ++ [w])) := by
      intro w
      rw [show jsSet (.arr acc) (natKey acc.length) w
        = .ok (.arr (setArr acc (natKey acc.length) w)) from rfl, setArr_append]
    have htail : mergeEntries (.arr (acc ++ [x])) (indexPairs (acc.length + 1) rest)
        = .ok (.arr ((acc ++ [x]) ++ rest)) := by
      have := ih (acc ++ [x]) (fun w hw hwfw hcw => hIH w
        (by simp only [listWeight] at *; omega) hwfw hcw) hwf.2
      simpa using this
    have hif : ∀ (e : JsVal), (if (jsGet (.arr acc) (natKey acc.length)).truthy = true
        then jsGet (.arr acc) (natKey acc.length) else e) = e := by
      intro e
      rw [hget]
      rfl
    rw [indexPairs]
    by_cases hc : x.isComposite = true
    · have hinner : mergeEntries (emptyLike x) (jsEntries x) = .ok x :=
        hIH x (by simp only [listWeight]; omega) hwf.1 hc
      simp only [mergeEntries_cons, if_pos hc, hif, hinner, hstep]
      rw [htail]
      simp
    · simp only [mergeEntries_cons, if_neg hc, hstep]
      rw [htail]
      simp

/-- Merging a well-formed composite value into a fresh empty composite of its
own kind reproduces it verbatim. -/
theorem merge_empty :
    ∀ (v : JsVal), wfVal v = true → v.isComposite = true →
      mergeEntries (emptyLike v) (jsEntries v) = .ok v := by
  have H : ∀ (n : Nat) (v : JsVal), jsWeight v ≤ n → wfVal v = true → v.isComposite = true →
      mergeEntries (emptyLike v) (jsEntries v) = .ok v := by
    intro n
    induction n with
    | zero =>
      intro v hv
      have := jsWeight_pos v
      omega
    | succ n ihn =>
      intro v hv hwf hc
      match v with
      | .obj vfs =>
        simp only [wfVal, Bool.and_eq_true, decide_eq_true_eq] at hwf
        have := mergeEntries_obj_disjoint vfs [] (fun w hw hwfw hcw =>
          ihn w (by simp only [jsWeight] at hv; omega) hwfw hcw)
          (fun k _ => by simp) hwf.1 hwf.2
        simpa [emptyLike, jsEntries] using this
      | .arr xs =>
        simp only [wfVal] at hwf
        have := mergeEntries_arr_disjoint xs [] (fun w hw hwfw hcw =>
          ihn w (by simp only [jsWeight] at hv; omega) hwfw hcw) hwf
        simpa [emptyLike, jsEntries] using this
      | .null | .undef | .bool _ | .num _ | .str _ => simp [JsVal.isComposite] at hc
  intro v hwf hc
  exact H (jsWeight v) v le_rfl hwf hc

/-! ## `valueEq` introduction lemmas -/

theorem contains_of_mem {l : List String} {k : String} (h : k ∈ l) :
    l.contains k = true := by
  induction l with
  | nil => cases h
  | cons a rest ih =>
    rcases List.mem_cons.1 h with h' | h'
    · simp [h']
    · simp only [List.contains_cons, Bool.or_eq_true]
      exact Or.inr (ih h')

theorem keys_all_contains {a b : List String} (h : ∀ k ∈ a, k ∈ b) :
    (a.all fun k => b.contains k) = true := by
  rw [List.all_eq_true]
  intro k hk
  exact contains_of_mem (h k hk)

theorem valueEqFields_of {gs fs : List (String × JsVal)}
    (h : ∀ k v, (k, v) ∈ fs → ∃ w, List.lookup k gs = some w ∧ valueEq v w = true) :
    valueEqFields fs gs = true := by
  induction fs with
  | nil => rfl
  | cons p rest ih =>
    obtain ⟨w, hw, hv⟩ := h p.1 p.2 (by simp)
    simp only [valueEqFields, hw, Bool.and_eq_true]
    exact ⟨hv, ih (fun k v hkv => h k v (List.mem_cons_of_mem _ hkv))⟩

theorem valueEq_obj_intro {a b : List (String × JsVal)}
    (hab : ∀ k, k ∈ a.map Prod.fst → k ∈ b.map Prod.fst)
    (hba : ∀ k, k ∈ b.map Prod.fst → k ∈ a.map Prod.fst)
    (hf : valueEqFields a b = true) :
    valueEq (.obj a) (.obj b) = true := by
  simp only [valueEq, Bool.and_eq_true]
  exact ⟨keys_all_contains hab, keys_all_contains hba, hf⟩

theorem valueEqList_of_forall₂ {xs ys : List JsVal}
    (h : List.Forall₂ (fun x y => valueEq x y = true) xs ys) :
    valueEqList xs ys = true := by
  induction h with
  | nil => rfl
  | cons hxy _ ih => simp only [valueEqList, Bool.and_eq_true]; exact ⟨hxy, ih⟩

theorem valueEq_refl : ∀ (v : JsVal), wfVal v = true → valueEq v v = true := by
  have H : ∀ (n : Nat) (v : JsVal), jsWeight v ≤ n → wfVal v = true → valueEq v v = true := by
    intro n
    induction n with
    | zero =>
      intro v hv
      have := jsWeight_pos v
      omega
    | succ n ihn =>
      intro v hv hwf
      match v with
      | .null | .bool _ | .num _ | .str _ => simp [valueEq]
      | .undef => simp [wfVal] at hwf
      | .arr xs =>
        simp only [wfVal] at hwf
        simp only [valueEq]
        refine valueEqList_of_forall₂ ?_
        rw [List.forall₂_same]
        intro x hx
        refine ihn x ?_ (wfList_mem hwf hx)
        have h1 := jsWeight_mem_list hx
        simp only [jsWeight] at hv
        omega
      | .obj fs =>
        simp only [wfVal, Bool.and_eq_true, decide_eq_true_eq] at hwf
        refine valueEq_obj_intro (fun k hk => hk) (fun k hk => hk) ?_
        refine valueEqFields_of ?_
        intro k w hkw
        refine ⟨w, nodup_lookup_of_mem hwf.1 hkw, ?_⟩
        refine ihn w ?_ (wfFields_mem hwf.2 hkw)
        have h1 := jsWeight_mem_fields hkw
        simp only [jsWeight] at hv
        omega
  intro v hwf
  exact H (jsWeight v) v le_rfl hwf

/-! ## `generateBlankJson` case equations -/

theorem generateBlankJson_type_object {fields : List (String × JsVal)}
    (ht : jsGet (.obj fields) "type" = .str "object")
    (hp : (jsGet (.obj fields) "properties").truthy = true) :
    generateBlankJson (.obj fields)
      = .obj ((jsEntries (jsGet (.obj fields) "properties")).map
          (fun p => (p.1, generateBlankJson p.2))) := by
  rw [generateBlankJson, ht]
  split <;> try simp_all
  have step1 : List.map (fun (p : {x // x ∈ jsEntries (jsGet (JsVal.obj fields) "properties")}) =>
      (p.1.1, if p.1.2.isComposite = true then generateBlankJson p.1.2 else JsVal.undef))
        (jsEntries (jsGet (JsVal.obj fields) "properties")).attach
      = List.map (fun p => (p.1.1, generateBlankJson p.1.2))
        (jsEntries (jsGet (JsVal.obj fields) "properties")).attach := by
    apply List.map_congr_left
    intro p _
    rw [generateBlankJson_guard_ite]
  rw [step1, List.map_attach]
  simp

theorem generateBlankJson_type_object_falsy {fields : List (String × JsVal)}
    (ht : jsGet (.obj fields) "type" = .str "object")
    (hp : (jsGet (.obj fields) "properties").truthy = false) :
    generateBlankJson (.obj fields) = .obj [] := by
  rw [generateBlankJson, ht]
  split <;> simp_all

theorem generateBlankJson_type_array {fields : List (String × JsVal)}
    (ht : jsGet (.obj fields) "type" = .str "array")
    (hi : (jsGet (.obj fields) "items").truthy = true) :
    generateBlankJson (.obj fields)
      = .arr [generateBlankJson (jsGet (.obj fields) "items")] := by
  rw [generateBlankJson, ht]
  split <;> simp_all

theorem generateBlankJson_type_array_falsy {fields : List (String × JsVal)}
    (ht : jsGet (.obj fields) "type" = .str "array")
    (hi : (jsGet (.obj fields) "items").truthy = false) :
    generateBlankJson (.obj fields) = .arr [] := by
  rw [generateBlankJson, ht]
  split <;> simp_all

theorem generateBlankJson_type_string {fields : List (String × JsVal)}
    (ht : jsGet (.obj fields) "type" = .str "string") :
    generateBlankJson (.obj fields) = .str "" := by
  rw [generateBlankJson, ht]
  rfl

theorem generateBlankJson_type_number {fields : List (String × JsVal)}
    (ht : jsGet (.obj fields) "type" = .str "number") :
    generateBlankJson (.obj fields) = .num 0 := by
  rw [generateBlankJson, ht]
  rfl

theorem generateBlankJson_type_integer {fields : List (String × JsVal)}
    (ht : jsGet (.obj fields) "type" = .str "integer") :
    generateBlankJson (.obj fields) = .num 0 := by
  rw [generateBlankJson, ht]
  rfl

theorem generateBlankJson_type_boolean {fields : List (String × JsVal)}
    (ht : jsGet (.obj fields) "type" = .str "boolean") :
    generateBlankJson (.obj fields) = .bool false := by
  rw [generateBlankJson, ht]
  rfl

theorem generateBlankJson_type_other {fields : List (String × JsVal)} {t : JsVal}
    (ht : jsGet (.obj fields) "type" = t)
    (h1 : t ≠ .str "object") (h2 : t ≠ .str "array") (h3 : t ≠ .str "string")
    (h4 : t ≠ .str "number") (h5 : t ≠ .str "integer") (h6 : t ≠ .str "boolean") :
    generateBlankJson (.obj fields) = .null := by
  rw [generateBlankJson, ht]
  split
  · exact absurd rfl h1
  · exact absurd rfl h2
  · exact absurd rfl h3
  · exact absurd rfl h4
  · exact absurd rfl h5
  · exact absurd rfl h6
  · rfl

instance : LawfulBEq JsVal where
  eq_of_beq h := (JsVal.jsEq_iff _ _).1 h
  rfl := (JsVal.jsEq_iff _ _).2 rfl

/-- A schema node of the shape the Shape Reconciler produces a composite blank
for: an object node whose `type` is `"object"` or `"array"`. -/
def compositeTyped (S : JsVal) : Bool :=
  match S with
  | .obj _ => jsGet S "type" == .str "object" || jsGet S "type" == .str "array"
  | _ => false

/-! ## Case lemmas for `conformsTo`, `completeFor`, `wfSchema` -/

theorem conformsTo_object_shape {Sfs : List (String × JsVal)} {v : JsVal}
    (ht : jsGet (.obj Sfs) "type" = .str "object")
    (h : conformsTo (.obj Sfs) v = true) : ∃ vfs, v = JsVal.obj vfs := by
  match v with
  | .obj vfs => exact ⟨vfs, rfl⟩
  | .null | .undef | .bool _ | .num _ | .str _ | .arr _ => simp [conformsTo, ht] at h

theorem conformsTo_object_elim {Sfs vfs : List (String × JsVal)}
    (ht : jsGet (.obj Sfs) "type" = .str "object")
    (h : conformsTo (.obj Sfs) (.obj vfs) = true) :
    ∀ k psch, (k, psch) ∈ propsOf (.obj Sfs) → ∀ w, List.lookup k vfs = some w →
      conformsTo psch w = true := by
  simp only [conformsTo, ht] at h
  intro k psch hmem w hw
  rw [List.all_eq_true] at h
  have := h ⟨(k, psch), hmem⟩ (List.mem_attach _ _)
  simpa [hw] using this

theorem conformsTo_array_shape {Sfs : List (String × JsVal)} {v : JsVal}
    (ht : jsGet (.obj Sfs) "type" = .str "array")
    (h : conformsTo (.obj Sfs) v = true) : ∃ xs, v = JsVal.arr xs := by
  match v with
  | .arr xs => exact ⟨xs, rfl⟩
  | .null | .undef | .bool _ | .num _ | .str _ | .obj _ => simp [conformsTo, ht] at h

theorem conformsTo_array_elim {Sfs ifs : List (String × JsVal)} {xs : List JsVal}
    (ht : jsGet (.obj Sfs) "type" = .str "array")
    (hj : jsGet (.obj Sfs) "items" = .obj ifs)
    (h : conformsTo (.obj Sfs) (.arr xs) = true) :
    ∀ x ∈ xs, conformsTo (.obj ifs) x = true := by
  simp only [conformsTo, ht] at h
  split at h
  case _ ifs' heq =>
    rw [hj] at heq
    injection heq with he
    subst he
    rw [List.all_eq_true] at h
    intro x hx
    exact h x hx
  case _ hne => exact absurd hj (by simpa using hne ifs)

theorem completeFor_object_elim {Sfs vfs : List (String × JsVal)}
    (ht : jsGet (.obj Sfs) "type" = .str "object")
    (h : completeFor (.obj Sfs) (.obj vfs) = true) :
    ∀ k psch, (k, psch) ∈ propsOf (.obj Sfs) →
      ∃ w, List.lookup k vfs = some w ∧ completeFor psch w = true := by
  simp only [completeFor, ht] at h
  intro k psch hmem
  rw [List.all_eq_true] at h
  have := h ⟨(k, psch), hmem⟩ (List.mem_attach _ _)
  match hw : List.lookup k vfs with
  | some w =>
    refine ⟨w, rfl, ?_⟩
    simpa [hw] using this
  | none => simp [hw] at this

theorem completeFor_array_nonempty {Sfs : List (String × JsVal)} {xs : List JsVal}
    (ht : jsGet (.obj Sfs) "type" = .str "array")
    (hi : (jsGet (.obj Sfs) "items").truthy = true)
    (h : completeFor (.obj Sfs) (.arr xs) = true) : xs ≠ [] := by
  simp only [completeFor, ht, hi, Bool.and_eq_true, Bool.or_eq_true] at h
  intro he
  subst he
  simpa using h.1

theorem completeFor_array_elim {Sfs ifs : List (String × JsVal)} {xs : List JsVal}
    (ht : jsGet (.obj Sfs) "type" = .str "array")
    (hj : jsGet (.obj Sfs) "items" = .obj ifs)
    (h : completeFor (.obj Sfs) (.arr xs) = true) :
    ∀ x ∈ xs, completeFor (.obj ifs) x = true := by
  simp only [completeFor, ht, Bool.and_eq_true] at h
  have h2 := h.2
  split at h2
  case _ ifs' heq =>
    rw [hj] at heq
    injection heq with he
    subst he
    rw [List.all_eq_true] at h2
    exact fun x hx => h2 x hx
  case _ hne => exact absurd hj (by simpa using hne ifs)

theorem wfSchema_props_obj {Sfs : List (String × JsVal)}
    (hw : wfSchema (.obj Sfs) = true)
    (hp : (jsGet (.obj Sfs) "properties").truthy = true) :
    ∃ pfs, jsGet (.obj Sfs) "properties" = .obj pfs ∧
      (pfs.map Prod.fst).Nodup ∧ ∀ k w, (k, w) ∈ pfs → wfSchema w = true := by
  rw [wfSchema] at hw
  simp only [Bool.and_eq_true] at hw
  match hq : jsGet (.obj Sfs) "properties" with
  | .obj pfs =>
    refine ⟨pfs, rfl, ?_, ?_⟩
    · have := hw.1
      rw [hq] at this
      simp only [Bool.and_eq_true, decide_eq_true_eq] at this
      exact this.1
    · intro k w hkw
      have := hw.1
      rw [hq] at this
      simp only [Bool.and_eq_true, decide_eq_true_eq, List.all_eq_true] at this
      exact this.2 ⟨(k, w), hkw⟩ (List.mem_attach _ _)
  | .null | .undef | .bool _ | .num _ | .str _ | .arr _ =>
    exfalso
    have h1 := hw.1
    rw [hq] at h1 hp
    rw [Bool.not_eq_true'] at h1
    rw [hp] at h1
    cases h1

theorem wfSchema_items {Sfs ifs : List (String × JsVal)}
    (hw : wfSchema (.obj Sfs) = true)
    (hj : jsGet (.obj Sfs) "items" = .obj ifs) : wfSchema (.obj ifs) = true := by
  rw [wfSchema] at hw
  simp only [Bool.and_eq_true] at hw
  have := hw.2
  rw [hj] at this
  exact this

theorem propsOf_falsy {Sfs : List (String × JsVal)}
    (hp : (jsGet (.obj Sfs) "properties").truthy = false) :
    propsOf (.obj Sfs) = [] := by
  unfold propsOf
  match hq : jsGet (.obj Sfs) "properties" with
  | .obj pfs => rw [hq] at hp; simp [JsVal.truthy] at hp
  | .null | .undef | .bool _ | .num _ | .str _ | .arr _ => rfl

theorem lookup_map_snd (f : JsVal → JsVal) (k : String) :
    ∀ (pfs : List (String × JsVal)),
      List.lookup k (pfs.map (fun p => (p.1, f p.2))) = (List.lookup k pfs).map f := by
  intro pfs
  induction pfs with
  | nil => rfl
  | cons p rest ih =>
    simp only [List.map_cons, List.lookup]
    cases hbeq : k == p.1 with
    | true => rfl
    | false => exact ih

/-- Truthy blanks come exactly from composite-typed schema nodes. -/
theorem blank_truthy_cases {S : JsVal} (h : (generateBlankJson S).truthy = true) :
    ∃ fs, S = .obj fs ∧
      (jsGet S "type" = .str "object" ∨ jsGet S "type" = .str "array") := by
  match S with
  | .null | .undef | .bool _ | .num _ | .str _ =>
    rw [generateBlankJson_not_composite (by simp [JsVal.isComposite])] at h
    simp [JsVal.truthy] at h
  | .arr xs =>
    rw [show generateBlankJson (.arr xs) = .null from by rw [generateBlankJson]] at h
    simp [JsVal.truthy] at h
  | .obj fs =>
    refine ⟨fs, rfl, ?_⟩
    match ht : jsGet (.obj fs) "type" with
    | .str s =>
      by_cases h1 : s = "object"
      · exact Or.inl (by rw [h1])
      · by_cases h2 : s = "array"
        · exact Or.inr (by rw [h2])
        · exfalso
          by_cases h3 : s = "string"
          · rw [generateBlankJson_type_string (h3 ▸ ht)] at h
            simp [JsVal.truthy] at h
          · by_cases h4 : s = "number"
            · rw [generateBlankJson_type_number (h4 ▸ ht)] at h
              simp [JsVal.truthy] at h
            · by_cases h5 : s = "integer"
              · rw [generateBlankJson_type_integer (h5 ▸ ht)] at h
                simp [JsVal.truthy] at h
              · by_cases h6 : s = "boolean"
                · rw [generateBlankJson_type_boolean (h6 ▸ ht)] at h
                  simp [JsVal.truthy] at h
                · rw [generateBlankJson_type_other ht
                    (by simp [h1]) (by simp [h2]) (by simp [h3])
                    (by simp [h4]) (by simp [h5]) (by simp [h6])] at h
                  simp [JsVal.truthy] at h
    | .null | .undef | .bool _ | .num _ | .arr _ | .obj _ =>
      exfalso
      rw [generateBlankJson_type_other ht (by simp) (by simp) (by simp)
        (by simp) (by simp) (by simp)] at h
      simp [JsVal.truthy] at h

/-- Amended blank/merge totality: for a composite-typed, well-formed schema
and a well-formed value that both conforms to and is complete for it, merging
the value into the blank skeleton succeeds and is value-equal to the value. -/
theorem deepMerge_blank_conforming_complete :
    ∀ (S V : JsVal), wfSchema S = true → wfVal V = true → compositeTyped S = true →
      conformsTo S V = true → completeFor S V = true →
      ∃ W, deepMerge (generateBlankJson S) V = .ok W ∧ valueEq W V = true := by
  have H : ∀ (n : Nat) (S V : JsVal), jsWeight V ≤ n →
      wfSchema S = true → wfVal V = true → compositeTyped S = true →
      conformsTo S V = true → completeFor S V = true →
      ∃ W, deepMerge (generateBlankJson S) V = .ok W ∧ valueEq W V = true := by
    intro n
    induction n with
    | zero =>
      intro S V hv
      have := jsWeight_pos V
      omega
    | succ n ihn =>
      intro S V hv hwS hwV hct hcf hcp
      match S with
      | .null | .undef | .bool _ | .num _ | .str _ | .arr _ => simp [compositeTyped] at hct
      | .obj Sfs =>
      rw [show compositeTyped (.obj Sfs)
          = ((jsGet (.obj Sfs) "type" == JsVal.str "object")
             || (jsGet (.obj Sfs) "type" == JsVal.str "array")) from rfl,
        Bool.or_eq_true, beq_iff_eq, beq_iff_eq] at hct
      rcases hct with ht | ht
      · -- type "object"
        obtain ⟨vfs, hV⟩ := conformsTo_object_shape ht hcf
        subst hV
        have hwV' : (vfs.map Prod.fst).Nodup ∧ wfFields vfs = true := by
          simpa [wfVal, Bool.and_eq_true, decide_eq_true_eq] using hwV
        have hblank : ∃ tfs, generateBlankJson (.obj Sfs) = .obj tfs ∧
            tfs.map Prod.fst = (propsOf (.obj Sfs)).map Prod.fst ∧
            (∀ k psch, (k, psch) ∈ propsOf (.obj Sfs) →
              List.lookup k tfs = some (generateBlankJson psch)) ∧
            (tfs.map Prod.fst).Nodup ∧
            (∀ k psch, (k, psch) ∈ propsOf (.obj Sfs) → wfSchema psch = true) := by
          by_cases hp : (jsGet (.obj Sfs) "properties").truthy = true
          · obtain ⟨pfs, hpe, hndp, hws⟩ := wfSchema_props_obj hwS hp
            have hpof : propsOf (.obj Sfs) = pfs := by unfold propsOf; rw [hpe]
            refine ⟨pfs.map (fun p => (p.1, generateBlankJson p.2)), ?_, ?_, ?_, ?_, ?_⟩
            · rw [generateBlankJson_type_object ht hp, hpe]
              rfl
            · rw [hpof]
              simp
            · intro k psch hmem
              rw [hpof] at hmem
              rw [lookup_map_snd, nodup_lookup_of_mem hndp hmem]
              rfl
            · simpa using hndp
            · intro k psch hmem
              rw [hpof] at hmem
              exact hws k psch hmem
          · have hp' : (jsGet (.obj Sfs) "properties").truthy = false := by simpa using hp
            refine ⟨[], generateBlankJson_type_object_falsy ht hp', ?_, ?_, ?_, ?_⟩
            · rw [propsOf_falsy hp']
            · intro k psch hmem
              rw [propsOf_falsy hp'] at hmem
              cases hmem
            · exact List.nodup_nil
            · intro k psch hmem
              rw [propsOf_falsy hp'] at hmem
              cases hmem
        obtain ⟨tfs, hbl, hkeys_eq, hlk_blank, hnd_tfs, hws_decl⟩ := hblank
        have hdecl_sub : ∀ k, k ∈ (propsOf (.obj Sfs)).map Prod.fst → k ∈ vfs.map Prod.fst := by
          intro k hk
          obtain ⟨⟨k', psch⟩, hmem, hfst⟩ := List.mem_map.1 hk
          simp only at hfst
          rw [hfst] at hmem
          obtain ⟨w, hw, _⟩ := completeFor_object_elim ht hcp k psch hmem
          exact mem_keys_of_lookup hw
        have hper : ∀ k sv, (k, sv) ∈ vfs → sv.isComposite = true →
            ∃ w, mergeEntries (if (jsGet (.obj tfs) k).truthy = true then jsGet (.obj tfs) k
                  else emptyLike sv) (jsEntries sv) = .ok w ∧ valueEq w sv = true := by
          intro k sv hmem hc
          have hwsv : wfVal sv = true := wfFields_mem hwV'.2 hmem
          by_cases hd : k ∈ (propsOf (.obj Sfs)).map Prod.fst
          · obtain ⟨⟨k', psch⟩, hmem', hfst⟩ := List.mem_map.1 hd
            simp only at hfst
            rw [hfst] at hmem' 
            have hlkt : List.lookup k tfs = some (generateBlankJson psch) :=
              hlk_blank _ _ hmem'
            have hget : jsGet (.obj tfs) k = generateBlankJson psch := by
              rw [jsGet_obj, hlkt]
              rfl
            by_cases hbt : (generateBlankJson psch).truthy = true
            · obtain ⟨pfs2, hpsch, hty2⟩ := blank_truthy_cases hbt
              have hlkv : List.lookup k vfs = some sv := nodup_lookup_of_mem hwV'.1 hmem
              have hconf2 : conformsTo psch sv = true :=
                conformsTo_object_elim ht hcf k psch hmem' sv hlkv
              have hcomp2 : completeFor psch sv = true := by
                obtain ⟨w, hw, hcw⟩ := completeFor_object_elim ht hcp k psch hmem'
                rw [hlkv] at hw
                injection hw with he
                rw [he]
                exact hcw
              have hws2 : wfSchema psch = true := hws_decl k psch hmem'
              have hct2 : compositeTyped psch = true := by
                rw [hpsch]
                rw [show compositeTyped (.obj pfs2)
                    = ((jsGet (.obj pfs2) "type" == JsVal.str "object")
                       || (jsGet (.obj pfs2) "type" == JsVal.str "array")) from rfl]
                rw [hpsch] at hty2
                rcases hty2 with h2 | h2 <;> simp [h2]
              have hwt : jsWeight sv ≤ n := by
                have h1 := jsWeight_mem_fields hmem
                simp only [jsWeight] at hv
                omega
              obtain ⟨W, hW, hveq⟩ := ihn psch sv hwt hws2 hwsv hct2 hconf2 hcomp2
              refine ⟨W, ?_, hveq⟩
              rw [hget, if_pos hbt, ← deepMerge_composite hc]
              exact hW
            · refine ⟨sv, ?_, valueEq_refl sv hwsv⟩
              rw [hget, if_neg hbt, ← deepMerge_composite hc,
                deepMerge_composite hc]
              have hbt' : (generateBlankJson psch).truthy = false := by simpa using hbt
              rw [show mergeEntries (emptyLike sv) (jsEntries sv) = .ok sv from
                merge_empty sv hwsv hc]
          · have hnotin : k ∉ tfs.map Prod.fst := by
              rw [hkeys_eq]
              exact hd
            refine ⟨sv, ?_, valueEq_refl sv hwsv⟩
            rw [jsGet_obj_not_mem hnotin]
            rw [show (if (JsVal.undef).truthy = true then JsVal.undef else emptyLike sv)
              = emptyLike sv from rfl]
            exact merge_empty sv hwsv hc
        obtain ⟨rfs, hres, hframe, hcomp, hprim, hndr, hkeysub, hkeysup⟩ :=
          mergeEntries_obj_char vfs tfs hwV'.1
            (fun k sv hm hc => (hper k sv hm hc).elim (fun w hw => ⟨w, hw.1⟩))
        refine ⟨.obj rfs, ?_, ?_⟩
        · rw [hbl, deepMerge_composite (by simp [JsVal.isComposite])]
          exact hres
        · have hrfs_nd := hndr hnd_tfs
          refine valueEq_obj_intro ?_ ?_ ?_
          · intro k hk
            rcases hkeysub k hk with hk' | hk'
            · exact hdecl_sub k (hkeys_eq ▸ hk')
            · exact hk'
          · exact hkeysup
          · refine valueEqFields_of ?_
            intro k rv hkrv
            have hk : k ∈ vfs.map Prod.fst := by
              rcases hkeysub k (List.mem_map.2 ⟨(k, rv), hkrv, rfl⟩) with hk' | hk'
              · exact hdecl_sub k (hkeys_eq ▸ hk')
              · exact hk'
            match hsv : List.lookup k vfs with
            | none => exact absurd hk (lookup_eq_none_iff.1 hsv)
            | some sv =>
              have hmemv : (k, sv) ∈ vfs := lookup_mem hsv
              have hrv : List.lookup k rfs = some rv := nodup_lookup_of_mem hrfs_nd hkrv
              by_cases hc : sv.isComposite = true
              · obtain ⟨w, hw, hveqw⟩ := hper k sv hmemv hc
                obtain ⟨w', hw', hlk'⟩ := hcomp k sv hmemv hc
                rw [hw] at hw'
                injection hw' with he
                rw [← he] at hlk'
                rw [hlk'] at hrv
                injection hrv with he2
                rw [← he2]
                exact ⟨sv, rfl, hveqw⟩
              · have hpr := hprim k sv hmemv (by simpa using hc)
                rw [hpr] at hrv
                injection hrv with he2
                rw [← he2]
                exact ⟨sv, rfl, valueEq_refl sv (wfFields_mem hwV'.2 hmemv)⟩
      · -- type "array"
        obtain ⟨xs, hV⟩ := conformsTo_array_shape ht hcf
        subst hV
        have hwxs : wfList xs = true := by simpa [wfVal] using hwV
        by_cases hi : (jsGet (.obj Sfs) "items").truthy = true
        · -- blank is a one-element shape hint
          obtain ⟨x0, rest, hxs⟩ :
              ∃ x0 rest, xs = x0 :: rest := by
            match xs, completeFor_array_nonempty ht hi hcp with
            | [], hne => exact absurd rfl hne
            | x0 :: rest, _ => exact ⟨x0, rest, rfl⟩
          subst hxs
          simp only [wfList, Bool.and_eq_true] at hwxs
          have hbl := generateBlankJson_type_array ht hi
          set b := generateBlankJson (jsGet (.obj Sfs) "items") with hbdef
          have hget0 : jsGet (.arr [b]) (natKey 0) = b := by
            rw [show jsGet (.arr [b]) (natKey 0)
              = (List.lookup (natKey 0) (indexPairs 0 [b])).getD .undef from rfl]
            simp [indexPairs, List.lookup]
          have hset0 : ∀ (w : JsVal), jsSet (.arr [b]) (natKey 0) w = .ok (.arr [w]) := by
            intro w
            rw [show jsSet (.arr [b]) (natKey 0) w
              = .ok (.arr (setArr [b] (natKey 0) w)) from rfl, setArr_set (by simp)]
            rfl
          have htail : ∀ (w : JsVal), mergeEntries (.arr [w]) (indexPairs 1 rest)
              = .ok (.arr (w :: rest)) := by
            intro w
            have := mergeEntries_arr_disjoint rest [w]
              (fun u _ hwu hcu => merge_empty u hwu hcu) hwxs.2
            simpa using this
          have hfin : ∀ (w : JsVal), valueEq w x0 = true →
              valueEq (.arr (w :: rest)) (.arr (x0 :: rest)) = true := by
            intro w hw
            simp only [valueEq, valueEqList, Bool.and_eq_true]
            refine ⟨hw, ?_⟩
            refine valueEqList_of_forall₂ ?_
            rw [List.forall₂_same]
            intro u hu
            exact valueEq_refl u (wfList_mem hwxs.2 hu)
          rw [hbl, deepMerge_composite (by simp [JsVal.isComposite])]
          rw [show jsEntries (.arr (x0 :: rest)) = (natKey 0, x0) :: indexPairs 1 rest from rfl]
          by_cases hcx : x0.isComposite = true
          · by_cases hbt : b.truthy = true
            · obtain ⟨ifs, hitems, hty2⟩ := blank_truthy_cases hbt
              have hconf2 : conformsTo (.obj ifs) x0 = true :=
                conformsTo_array_elim ht hitems hcf x0 (by simp)
              have hcomp2 : completeFor (.obj ifs) x0 = true :=
                completeFor_array_elim ht hitems hcp x0 (by simp)
              have hws2 : wfSchema (.obj ifs) = true := wfSchema_items hwS hitems
              have hct2 : compositeTyped (.obj ifs) = true := by
                rw [show compositeTyped (.obj ifs)
                    = ((jsGet (.obj ifs) "type" == JsVal.str "object")
                       || (jsGet (.obj ifs) "type" == JsVal.str "array")) from rfl]
                rw [hitems] at hty2
                rcases hty2 with h2 | h2 <;> simp [h2]
              have hwt : jsWeight x0 ≤ n := by
                simp only [jsWeight, listWeight] at hv
                have := jsWeight_pos x0
                omega
              obtain ⟨W, hW, hveq⟩ := ihn (.obj ifs) x0 hwt hws2 hwxs.1 hct2 hconf2 hcomp2
              rw [← hitems] at hW
              rw [deepMerge_composite hcx] at hW
              rw [mergeEntries_cons, if_pos hcx, hget0, if_pos hbt]
              rw [show generateBlankJson (jsGet (.obj Sfs) "items") = b from rfl] at hW
              rw [hW]
              simp only [hset0]
              rw [htail W]
              exact ⟨.arr (W :: rest), rfl, hfin W hveq⟩
            · rw [mergeEntries_cons, if_pos hcx, hget0, if_neg hbt]
              rw [merge_empty x0 hwxs.1 hcx]
              simp only [hset0]
              rw [htail x0]
              exact ⟨.arr (x0 :: rest), rfl, hfin x0 (valueEq_refl x0 hwxs.1)⟩
          · rw [mergeEntries_cons, if_neg hcx]
            simp only [hset0]
            rw [htail x0]
            exact ⟨.arr (x0 :: rest), rfl, hfin x0 (valueEq_refl x0 hwxs.1)⟩
        · -- no items: blank is the empty array
          have hi' : (jsGet (.obj Sfs) "items").truthy = false := by simpa using hi
          rw [generateBlankJson_type_array_falsy ht hi',
            deepMerge_composite (by simp [JsVal.isComposite])]
          have := mergeEntries_arr_disjoint xs []
            (fun u _ hwu hcu => merge_empty u hwu hcu) hwxs
          rw [show jsEntries (.arr xs) = indexPairs 0 xs from rfl]
          rw [show indexPairs 0 xs = indexPairs ([] : List JsVal).length xs from rfl, this]
          refine ⟨.arr ([] ++ xs), rfl, ?_⟩
          simp only [List.nil_append]
          exact valueEq_refl (.arr xs) hwV
  intro S V
  exact H (jsWeight V) S V le_rfl

/-! ## Orchestrator unfolding and retry lemmas -/

theorem parsePayload_not_str {O : Oracles} {v : JsVal} (h : v.isStr = false) :
    parsePayload O v = .ok v := by
  match v with
  | .str s => simp [JsVal.isStr] at h
  | .null | .undef | .bool _ | .num _ | .arr _ | .obj _ => rfl

theorem processRequest_unfold (O : Oracles) (hooks : Hooks) (spec : JsVal)
    (path method : String) (data : JsVal) (r : Nat) :
    processRequest O hooks spec path method data r =
      (match parsePayload O (applyBeforeHook hooks data) with
      | .error e => .error e
      | .ok requestData =>
        match extractRelevantSpec spec path method with
        | .error e => .error e
        | .ok _slice =>
          match attempt O hooks spec path method requestData r with
          | .ok v => .ok v
          | .error e =>
            if r < MAX_RETRY_ATTEMPTS then
              processRequest O hooks spec path method
                (modifyQueryForTailOff requestData r) (r + 1)
            else .error e) := by
  rw [processRequest]

/-- A `JSON.parse` failure of a string payload (caller-supplied or produced by
the pre-prompt hook) propagates before the `try` block: no retry, and the
result does not depend on the model oracle. -/
theorem processRequest_parse_error {O : Oracles} {hooks : Hooks} {spec : JsVal}
    {path method : String} {data : JsVal} {s e : String} {r : Nat}
    (hh : applyBeforeHook hooks data = .str s)
    (hp : O.jsonParse s = .error e) :
    processRequest O hooks spec path method data r = .error e := by
  rw [processRequest_unfold, hh]
  rw [show parsePayload O (JsVal.str s) = O.jsonParse s from rfl, hp]

/-- An `extractRelevantSpec` failure propagates before the `try` block. -/
theorem processRequest_extract_error {O : Oracles} {hooks : Hooks} {spec : JsVal}
    {path method : String} {data rd : JsVal} {e : String} {r : Nat}
    (hh : applyBeforeHook hooks data = rd)
    (hrd : rd.isStr = false)
    (hex : extractRelevantSpec spec path method = .error e) :
    processRequest O hooks spec path method data r = .error e := by
  rw [processRequest_unfold, hh, parsePayload_not_str hrd]
  simp only [hex]

theorem shallowCopy_obj (fs : List (String × JsVal)) :
    shallowCopy (.obj fs) = .obj fs := rfl

/-- When every attempt from `r` through the retry budget fails, the request
with no pre-prompt hook and an object payload rejects with the error of
attempt `MAX_RETRY_ATTEMPTS`. -/
theorem processRequest_exhaust_from (O : Oracles) (g : Option (String → String))
    (spec : JsVal) (path method : String) (dfs : List (String × JsVal))
    (es : Nat → String) (sl : JsVal)
    (hex : extractRelevantSpec spec path method = .ok sl) :
    ∀ n r, r + n = MAX_RETRY_ATTEMPTS →
      (∀ k, r ≤ k → k ≤ MAX_RETRY_ATTEMPTS →
        attempt O ⟨none, g⟩ spec path method (.obj dfs) k = .error (es k)) →
      processRequest O ⟨none, g⟩ spec path method (.obj dfs) r
        = .error (es MAX_RETRY_ATTEMPTS) := by
  intro n
  induction n with
  | zero =>
    intro r hr hatt
    rw [processRequest_unfold,
      show applyBeforeHook ⟨none, g⟩ (JsVal.obj dfs) = JsVal.obj dfs from rfl,
      parsePayload_not_str (by simp [JsVal.isStr])]
    simp only [hex]
    rw [hatt r (le_refl r) (by omega)]
    show (if r < MAX_RETRY_ATTEMPTS then
        processRequest O ⟨none, g⟩ spec path method
          (modifyQueryForTailOff (.obj dfs) r) (r + 1)
      else .error (es r)) = .error (es MAX_RETRY_ATTEMPTS)
    rw [if_neg (by omega)]
    rw [show r = MAX_RETRY_ATTEMPTS from by omega]
  | succ n ih =>
    intro r hr hatt
    rw [processRequest_unfold,
      show applyBeforeHook ⟨none, g⟩ (JsVal.obj dfs) = JsVal.obj dfs from rfl,
      parsePayload_not_str (by simp [JsVal.isStr])]
    simp only [hex]
    rw [hatt r (le_refl r) (by simp only [MAX_RETRY_ATTEMPTS] at *; omega)]
    show (if r < MAX_RETRY_ATTEMPTS then
        processRequest O ⟨none, g⟩ spec path method
          (modifyQueryForTailOff (.obj dfs) r) (r + 1)
      else .error (es r)) = .error (es MAX_RETRY_ATTEMPTS)
    rw [if_pos (by simp only [MAX_RETRY_ATTEMPTS] at *; omega)]
    rw [show modifyQueryForTailOff (JsVal.obj dfs) r = JsVal.obj dfs from rfl]
    exact ih (r + 1) (by omega) (fun k hk1 hk2 => hatt k (by omega) hk2)

/-- When the first attempt succeeds, its reconciled value is returned as is. -/
theorem processRequest_first_ok {O : Oracles} {g : Option (String → String)}
    {spec : JsVal} {path method : String} {dfs : List (String × JsVal)}
    {v sl : JsVal} {r : Nat}
    (hex : extractRelevantSpec spec path method = .ok sl)
    (h0 : attempt O ⟨none, g⟩ spec path method (.obj dfs) r = .ok v) :
    processRequest O ⟨none, g⟩ spec path method (.obj dfs) r = .ok v := by
  rw [processRequest_unfold,
    show applyBeforeHook ⟨none, g⟩ (JsVal.obj dfs) = JsVal.obj dfs from rfl,
    parsePayload_not_str (by simp [JsVal.isStr])]
  simp only [hex]
  rw [h0]

/-- The request payload handed to the model on attempt `n`, for a registered
pre-prompt hook `h` and original payload `d`: `n + 1` cumulative applications
of `h` interleaved with the no-op tail-off copies. -/
def payIter (h : JsVal → JsVal) (d : JsVal) : Nat → JsVal
  | 0 => h d
  | n + 1 => h (modifyQueryForTailOff (payIter h d n) n)

theorem payIter_shift (h : JsVal → JsVal) (d : JsVal) (r : Nat) :
    ∀ k, payIter h (modifyQueryForTailOff (h d) r) k = payIter h d (k + 1) := by
  intro k
  induction k with
  | zero => rfl
  | succ k ih =>
    show h (modifyQueryForTailOff (payIter h (modifyQueryForTailOff (h d) r) k) k)
      = h (modifyQueryForTailOff (payIter h d (k + 1)) (k + 1))
    rw [ih]
    rfl

/-- Retry unrolling with a registered pre-prompt hook: if the hook never
returns a string, attempt `k` is invoked on `payIter h d k`, and the first
success is returned. -/
theorem processRequest_hook_iteration (O : Oracles) (g : Option (String → String))
    (h : JsVal → JsVal) (spec : JsVal) (path method : String)
    (hns : ∀ w, (h w).isStr = false) (sl : JsVal)
    (hex : extractRelevantSpec spec path method = .ok sl) :
    ∀ (n : Nat) (d : JsVal) (r : Nat) (v : JsVal) (es : Nat → String),
      r + n ≤ MAX_RETRY_ATTEMPTS →
      (∀ k, k < n →
        attempt O ⟨some h, g⟩ spec path method (payIter h d k) (r + k) = .error (es k)) →
      attempt O ⟨some h, g⟩ spec path method (payIter h d n) (r + n) = .ok v →
      processRequest O ⟨some h, g⟩ spec path method d r = .ok v := by
  intro n
  induction n with
  | zero =>
    intro d r v es hb _ hok
    rw [processRequest_unfold,
      show applyBeforeHook ⟨some h, g⟩ d = h d from rfl,
      parsePayload_not_str (hns d)]
    simp only [hex]
    rw [Nat.add_zero] at hok
    rw [show h d = payIter h d 0 from rfl, hok]
  | succ n ih =>
    intro d r v es hb hfail hok
    rw [processRequest_unfold,
      show applyBeforeHook ⟨some h, g⟩ d = h d from rfl,
      parsePayload_not_str (hns d)]
    simp only [hex]
    have hfail0 := hfail 0 (by omega)
    rw [Nat.add_zero] at hfail0
    rw [show h d = payIter h d 0 from rfl, hfail0]
    show (if r < MAX_RETRY_ATTEMPTS then
        processRequest O ⟨some h, g⟩ spec path method
          (modifyQueryForTailOff (payIter h d 0) r) (r + 1)
      else .error (es 0)) = .ok v
    rw [if_pos (by simp only [MAX_RETRY_ATTEMPTS] at *; omega)]
    refine ih (modifyQueryForTailOff (payIter h d 0) r) (r + 1) v (fun k => es (k + 1))
      (by omega) ?_ ?_
    · intro k hk
      rw [show modifyQueryForTailOff (payIter h d 0) r
          = modifyQueryForTailOff (h d) r from rfl,
        payIter_shift, show r + 1 + k = r + (k + 1) from by omega]
      exact hfail (k + 1) (by omega)
    · rw [show modifyQueryForTailOff (payIter h d 0) r
          = modifyQueryForTailOff (h d) r from rfl,
        payIter_shift, show r + 1 + n = r + (n + 1) from by omega]
      exact hok

/-! ## Spec Slicer case lemmas -/

theorem isNullish_obj (fs : List (String × JsVal)) : (JsVal.obj fs).isNullish = false := rfl

theorem isNullish_undef : (JsVal.undef).isNullish = true := rfl

theorem truthy_obj (fs : List (String × JsVal)) : (JsVal.obj fs).truthy = true := rfl

theorem truthy_undef : (JsVal.undef).truthy = false := rfl

theorem jsGet_obj_lookup_none {fs : List (String × JsVal)} {k : String}
    (h : List.lookup k fs = none) : jsGet (.obj fs) k = .undef := by
  rw [jsGet_obj, h]
  rfl

theorem truthy_null : (JsVal.null).truthy = false := rfl

theorem throw_eq_error {α : Type} (e : String) :
    (MonadExceptOf.throw e : Except String α) = .error e := rfl

theorem extractRelevantSpec_found {spec : JsVal} {pfs mfs : List (String × JsVal)}
    {path method : String} {ms : JsVal}
    (hn : spec.isNullish = false)
    (hp : jsGet spec "paths" = .obj pfs)
    (hpath : List.lookup path pfs = some (.obj mfs))
    (hm : List.lookup method mfs = some ms)
    (hms : ms.truthy = true) :
    extractRelevantSpec spec path method
      = .ok (.obj [("openapi", jsGet spec "openapi"), ("info", jsGet spec "info"),
          ("paths", .obj [(path, .obj [(method, ms)])]),
          ("components", jsGet spec "components")]) := by
  simp [extractRelevantSpec, jsGetE, hn, hp, hpath, hm, hms, jsGet_obj,
    isNullish_obj, truthy_obj, bind, Except.bind, pure, Except.pure,
    throw, throwThe, MonadExcept.throw]

theorem extractRelevantSpec_missing_path {spec : JsVal} {pfs : List (String × JsVal)}
    {path method : String}
    (hn : spec.isNullish = false)
    (hp : jsGet spec "paths" = .obj pfs)
    (hpath : List.lookup path pfs = none) :
    extractRelevantSpec spec path method
      = .error ("Path or method not found in OpenAPI specification: "
          ++ path ++ ", " ++ method) := by
  simp [extractRelevantSpec, jsGetE, hn, hp, jsGet_obj_lookup_none hpath,
    isNullish_obj, isNullish_undef, truthy_undef, truthy_null, throw_eq_error,
    bind, Except.bind, pure, Except.pure,
    throw, throwThe, MonadExcept.throw]

theorem extractRelevantSpec_missing_method {spec : JsVal} {pfs mfs : List (String × JsVal)}
    {path method : String}
    (hn : spec.isNullish = false)
    (hp : jsGet spec "paths" = .obj pfs)
    (hpath : List.lookup path pfs = some (.obj mfs))
    (hm : List.lookup method mfs = none) :
    extractRelevantSpec spec path method
      = .error ("Path or method not found in OpenAPI specification: "
          ++ path ++ ", " ++ method) := by
  simp [extractRelevantSpec, jsGetE, hn, hp, hpath, jsGet_obj_lookup_none hm,
    isNullish_obj, isNullish_undef, truthy_obj, truthy_undef, truthy_null,
    throw_eq_error, jsGet_obj, bind, Except.bind, pure, Except.pure,
    throw, throwThe, MonadExcept.throw]

/-! ## `attempt` failure lemmas -/

theorem attempt_llm_error {O : Oracles} {hooks : Hooks} {spec : JsVal}
    {path method : String} {rd : JsVal} {k : Nat} {e : String}
    (hllm : O.llm k rd = .error e) :
    attempt O hooks spec path method rd k = .error e := by
  simp [attempt, hllm, bind, Except.bind]

theorem attempt_schema_not_found {O : Oracles} {hooks : Hooks} {spec : JsVal}
    {path method : String} {rd u : JsVal} {k : Nat} {raw : String}
    (hllm : O.llm k rd = .ok raw)
    (h200 : getSchemaPath spec path method .response = .ok u)
    (hu : u.truthy = false) :
    attempt O hooks spec path method rd k
      = .error ("Schema not found for response in " ++ jsToUpper method ++ " " ++ path) := by
  simp [attempt, hllm, validateData, h200, hu, bind, Except.bind,
    throw, throwThe, MonadExcept.throw, VKind.lower]

/-! ## Validator-swap invariance (the request-body schema is never consulted) -/

/-- The oracle with the compiled validator's behaviour replaced on one schema
value (used to show the pipeline never consults the request-body schema). -/
def swapValidator (O : Oracles) (rs : JsVal) (f : JsVal → JsVal → Bool) : Oracles :=
  { O with ajvValidate := fun s v => if s == rs then f s v else O.ajvValidate s v }

theorem swapValidator_llm (O : Oracles) (rs : JsVal) (f : JsVal → JsVal → Bool) :
    (swapValidator O rs f).llm = O.llm := rfl

theorem swapValidator_jsonParse (O : Oracles) (rs : JsVal) (f : JsVal → JsVal → Bool) :
    (swapValidator O rs f).jsonParse = O.jsonParse := rfl

theorem validateData_validator_swap {O : Oracles} {f : JsVal → JsVal → Bool}
    {spec : JsVal} {path method : String} {rs os : JsVal} {data : String}
    (hresp : getSchemaPath spec path method .response = .ok os)
    (hneq : os ≠ rs) :
    validateData (swapValidator O rs f) spec data path method .response
      = validateData O spec data path method .response := by
  have hb : (os == rs) = false := beq_eq_false_iff_ne.2 hneq
  simp only [validateData, hresp, bind, Except.bind, swapValidator_jsonParse]
  by_cases ht : os.truthy = true
  · simp only [ht]
    cases hp : O.jsonParse data with
    | error e => simp
    | ok v =>
      simp [swapValidator, hneq]
  · simp [ht]

theorem attempt_validator_swap {O : Oracles} {hooks : Hooks} {f : JsVal → JsVal → Bool}
    {spec : JsVal} {path method : String} {rd : JsVal} {k : Nat} {rs os : JsVal}
    (hresp : getSchemaPath spec path method .response = .ok os)
    (hneq : os ≠ rs) :
    attempt (swapValidator O rs f) hooks spec path method rd k
      = attempt O hooks spec path method rd k := by
  simp only [attempt, bind, Except.bind, swapValidator_llm, swapValidator_jsonParse]
  cases hl : O.llm k rd with
  | error e => rfl
  | ok raw =>
    simp only [validateData_validator_swap hresp hneq]

theorem processRequest_validator_swap {O : Oracles} {hooks : Hooks}
    {f : JsVal → JsVal → Bool} {spec : JsVal} {path method : String} {rs os : JsVal}
    (hresp : getSchemaPath spec path method .response = .ok os)
    (hneq : os ≠ rs) :
    ∀ (m r : Nat) (data : JsVal), MAX_RETRY_ATTEMPTS + 1 - r ≤ m →
      processRequest (swapValidator O rs f) hooks spec path method data r
        = processRequest O hooks spec path method data r := by
  intro m
  induction m with
  | zero =>
    intro r data hm
    rw [processRequest_unfold, processRequest_unfold]
    rw [show parsePayload (swapValidator O rs f) (applyBeforeHook hooks data)
      = parsePayload O (applyBeforeHook hooks data) from rfl]
    cases hp : parsePayload O (applyBeforeHook hooks data) with
    | error e => rfl
    | ok rd =>
      cases hex : extractRelevantSpec spec path method with
      | error e => rfl
      | ok sl =>
        show (match attempt (swapValidator O rs f) hooks spec path method rd r with
          | .ok v => Except.ok v
          | .error e =>
            if r < MAX_RETRY_ATTEMPTS then
              processRequest (swapValidator O rs f) hooks spec path method
                (modifyQueryForTailOff rd r) (r + 1)
            else .error e)
          = (match attempt O hooks spec path method rd r with
          | .ok v => Except.ok v
          | .error e =>
            if r < MAX_RETRY_ATTEMPTS then
              processRequest O hooks spec path method
                (modifyQueryForTailOff rd r) (r + 1)
            else .error e)
        rw [attempt_validator_swap hresp hneq]
        cases ha : attempt O hooks spec path method rd r with
        | ok v => rfl
        | error e =>
          show (if r < MAX_RETRY_ATTEMPTS then
              processRequest (swapValidator O rs f) hooks spec path method
                (modifyQueryForTailOff rd r) (r + 1)
            else Except.error e)
            = (if r < MAX_RETRY_ATTEMPTS then
              processRequest O hooks spec path method
                (modifyQueryForTailOff rd r) (r + 1)
            else Except.error e)
          rw [if_neg (by simp only [MAX_RETRY_ATTEMPTS] at *; omega),
            if_neg (by simp only [MAX_RETRY_ATTEMPTS] at *; omega)]
  | succ m ih =>
    intro r data hm
    rw [processRequest_unfold, processRequest_unfold]
    rw [show parsePayload (swapValidator O rs f) (applyBeforeHook hooks data)
      = parsePayload O (applyBeforeHook hooks data) from rfl]
    cases hp : parsePayload O (applyBeforeHook hooks data) with
    | error e => rfl
    | ok rd =>
      cases hex : extractRelevantSpec spec path method with
      | error e => rfl
      | ok sl =>
        show (match attempt (swapValidator O rs f) hooks spec path method rd r with
          | .ok v => Except.ok v
          | .error e =>
            if r < MAX_RETRY_ATTEMPTS then
              processRequest (swapValidator O rs f) hooks spec path method
                (modifyQueryForTailOff rd r) (r + 1)
            else .error e)
          = (match attempt O hooks spec path method rd r with
          | .ok v => Except.ok v
          | .error e =>
            if r < MAX_RETRY_ATTEMPTS then
              processRequest O hooks spec path method
                (modifyQueryForTailOff rd r) (r + 1)
            else .error e)
        rw [attempt_validator_swap hresp hneq]
        cases ha : attempt O hooks spec path method rd r with
        | ok v => rfl
        | error e =>
          show (if r < MAX_RETRY_ATTEMPTS then
              processRequest (swapValidator O rs f) hooks spec path method
                (modifyQueryForTailOff rd r) (r + 1)
            else Except.error e)
            = (if r < MAX_RETRY_ATTEMPTS then
              processRequest O hooks spec path method
                (modifyQueryForTailOff rd r) (r + 1)
            else Except.error e)
          by_cases hr : r < MAX_RETRY_ATTEMPTS
          · rw [if_pos hr, if_pos hr,
              ih (r + 1) (modifyQueryForTailOff rd r) (by omega)]
          · rw [if_neg hr, if_neg hr]

/-! ## Concrete instances

A hello-world specification mirroring `mock/openApiSpecMock.js` (with a
request-body schema distinct from the 200-response schema, so the two
validations are distinguishable), a variant without a `200` response, and
concrete oracles, used to instantiate the claims. -/

/-- The hello-world 200-response schema of the mock. -/
def textSchema : JsVal :=
  .obj [("type", .str "object"),
        ("properties", .obj [("text", .obj [("type", .str "string")])])]

/-- A request-body schema distinct from `textSchema`. -/
def rq8 : JsVal :=
  .obj [("type", .str "object"),
        ("properties", .obj [("q", .obj [("type", .str "string")])])]

def hwPath : String := "/generation-api/hello-world"

/-- `requestBody` / response body wrapper: `content."application/json".schema`. -/
def jsonBody (s : JsVal) : JsVal :=
  .obj [("content", .obj [("application/json", .obj [("schema", s)])])]

/-- The hello-world post operation: request schema `rq8`, response `textSchema`. -/
def op8 : JsVal :=
  .obj [("requestBody", jsonBody rq8),
        ("responses", .obj [("200", jsonBody textSchema)])]

def spec8 : JsVal :=
  .obj [("openapi", .str "3.1.0"), ("info", .obj []),
        ("paths", .obj [(hwPath, .obj [("post", op8)])])]

/-- An operation whose `responses` lacks a `200` entry. -/
def opNo200 : JsVal :=
  .obj [("requestBody", jsonBody textSchema),
        ("responses", .obj [("400", .obj [("description", .str "bad")])])]

def spec3 : JsVal :=
  .obj [("openapi", .str "3.1.0"), ("info", .obj []),
        ("paths", .obj [(hwPath, .obj [("post", opNo200)])])]

/-- A model response that the normalizer leaves unchanged. -/
def respStr : String := "\x7b\"text\":\"hi\"\x7d"

def respVal : JsVal := .obj [("text", .str "hi")]

/-- `JSON.parse` oracle recognising exactly `respStr`. -/
def jp0 : String → Except String JsVal :=
  fun s => if s = respStr then .ok respVal else .error "Unexpected token"

/-- Compiled-ajv oracle: accepts any value against `textSchema`, rejects every
value against any other schema (in particular against `rq8`). -/
def av0 : JsVal → JsVal → Bool := fun s _ => s == textSchema

/-- A payload that does not conform to the request-body schema `rq8`. -/
def payload8 : JsVal := .obj [("bogus", .num 1)]

/-- Always-succeeding model oracle. -/
def O8 : Oracles := { llm := fun _ _ => .ok respStr, jsonParse := jp0, ajvValidate := av0 }

/-- Model oracle succeeding on attempt 0 and down on every retry. -/
def O3 : Oracles :=
  { llm := fun n _ => if n = 0 then .ok "x" else .error "model down",
    jsonParse := jp0, ajvValidate := av0 }

/-- Model oracle failing every attempt with the attempt index as message. -/
def O4 : Oracles :=
  { llm := fun n _ => .error (natKey n), jsonParse := jp0, ajvValidate := av0 }

/-- Model oracle down on attempts 0 and 1, up from attempt 2 on. -/
def O9 : Oracles :=
  { llm := fun n _ => if n < 2 then .error "model down" else .ok respStr,
    jsonParse := jp0, ajvValidate := av0 }

/-- A pre-prompt hook whose iteration is observable: it wraps the payload. -/
def h9 : JsVal → JsVal := fun v => .obj [("w", v)]

def d9 : JsVal := .obj [("text", .str "John")]

/-! ## Evaluation lemmas for the concrete instances -/

theorem stripCode_no_btick : ∀ l : List Char, (∀ c ∈ l, c ≠ btick) → stripCode l = l := by
  intro l
  induction l with
  | nil => intro _; rw [stripCode]
  | cons c rest ih =>
    intro h
    rw [stripCode, if_neg (h c (List.mem_cons_self _ _)),
      ih (fun d hd => h d (List.mem_cons_of_mem _ hd))]

theorem dropWhile_all_false {p : Char → Bool} :
    ∀ l : List Char, (∀ c ∈ l, p c = false) → List.dropWhile p l = l := by
  intro l h
  cases l with
  | nil => rfl
  | cons c rest => simp [List.dropWhile_cons, h c (List.mem_cons_self _ _)]

theorem trimChars_no_ws {l : List Char} (h : ∀ c ∈ l, isJsWS c = false) :
    trimChars l = l := by
  unfold trimChars
  rw [dropWhile_all_false _ h,
    dropWhile_all_false _ (fun c hc => h c (List.mem_reverse.1 hc)),
    List.reverse_reverse]

/-- The fenced-block alternative matches first and is replaced by the empty
string (it has no capture group). -/
theorem stripCode_fence {rest r : List Char} (ht : rest.take 2 = [btick, btick])
    (hd : dropFence (rest.drop 2) = some r) :
    stripCode (btick :: rest) = stripCode r := by
  rw [stripCode, if_pos rfl, if_pos ht]
  split
  case _ r' heq => rw [hd] at heq; injection heq with he; rw [he]
  case _ hne => rw [hd] at hne; cases hne

/-- The inline alternative is replaced by its captured group. -/
theorem stripCode_inline {rest g r : List Char} (ht : ¬ rest.take 2 = [btick, btick])
    (hti : takeInline rest = some (g, r)) :
    stripCode (btick :: rest) = g ++ stripCode r := by
  rw [stripCode, if_pos rfl, if_neg ht]
  split
  case _ g' r' heq =>
    rw [hti] at heq
    injection heq with he
    injection he with h1 h2
    rw [h1, h2]
  case _ hne => rw [hti] at hne; cases hne

theorem norm_fenced : removeMarkdownCodeMarkup "```json\n\x7b\"a\":1\x7d\n```" = "" := by
  unfold removeMarkdownCodeMarkup
  rw [show "```json\n\x7b\"a\":1\x7d\n```".data
      = btick :: "``json\n\x7b\"a\":1\x7d\n```".data from by decide]
  rw [stripCode_fence (by decide) (show _ = some [] by decide)]
  rw [stripCode]
  decide

theorem norm_inline : removeMarkdownCodeMarkup "`x`" = "x" := by
  unfold removeMarkdownCodeMarkup
  rw [show "`x`".data = btick :: "x`".data from by decide]
  rw [stripCode_inline (by decide) (show _ = some (['x'], []) by decide)]
  rw [stripCode]
  decide

theorem norm_ticks : removeMarkdownCodeMarkup "``" = "" := by
  unfold removeMarkdownCodeMarkup
  rw [show "``".data = btick :: "`".data from by decide]
  rw [stripCode_inline (by decide) (show _ = some ([], []) by decide)]
  rw [stripCode]
  decide

theorem norm_respStr : removeMarkdownCodeMarkup respStr = respStr := by
  unfold removeMarkdownCodeMarkup
  rw [stripCode_no_btick _ (by decide), trimChars_no_ws (by decide)]

theorem blank_textSchema : generateBlankJson textSchema = .obj [("text", .str "")] := by
  have h1 := @generateBlankJson_type_object
    [("type", .str "object"), ("properties", .obj [("text", .obj [("type", .str "string")])])]
    rfl rfl
  have h2 := @generateBlankJson_type_string [("type", .str "string")] rfl
  rw [show textSchema = .obj [("type", .str "object"),
        ("properties", .obj [("text", .obj [("type", .str "string")])])] from rfl,
    h1]
  show JsVal.obj [("text", generateBlankJson (.obj [("type", JsVal.str "string")]))] = _
  rw [h2]

theorem merge_text : deepMerge (.obj [("text", .str "")]) (.obj [("text", .str "hi")])
    = .ok (.obj [("text", .str "hi")]) := by
  rw [deepMerge_composite (by rfl)]
  show mergeEntries (.obj [("text", .str "")]) [("text", .str "hi")] = _
  rw [mergeEntries_cons]
  simp only [JsVal.isComposite, Bool.false_eq_true, if_false, jsSet, setField]
  simp only [if_pos, reduceIte]
  rw [mergeEntries_nil]

theorem conformsTo_textSchema_hi : conformsTo textSchema (.obj [("text", .str "hi")]) = true := by
  rw [show textSchema = .obj [("type", .str "object"),
        ("properties", .obj [("text", .obj [("type", .str "string")])])] from rfl,
    conformsTo]
  simp +decide [propsOf, jsGet, List.lookup]
  rw [conformsTo] <;> first | decide | simp

theorem conformsTo_textSchema_empty : conformsTo textSchema (JsVal.obj []) = true := by
  rw [show textSchema = .obj [("type", .str "object"),
        ("properties", .obj [("text", .obj [("type", .str "string")])])] from rfl,
    conformsTo]
  simp +decide [propsOf, jsGet, List.lookup]

theorem completeFor_textSchema_hi : completeFor textSchema (.obj [("text", .str "hi")]) = true := by
  rw [show textSchema = .obj [("type", .str "object"),
        ("properties", .obj [("text", .obj [("type", .str "string")])])] from rfl,
    completeFor]
  simp +decide [propsOf, jsGet, List.lookup]
  rw [completeFor] <;> first | decide | simp

theorem wfSchema_textSchema : wfSchema textSchema = true := by
  rw [show textSchema = .obj [("type", .str "object"),
        ("properties", .obj [("text", .obj [("type", .str "string")])])] from rfl,
    wfSchema]
  simp +decide [jsGet, List.lookup]
  rw [wfSchema] <;> first | decide | simp

theorem bindOk {α β : Type} (a : α) (f : α → Except String β) :
    (Bind.bind (Except.ok a) f : Except String β) = f a := rfl

/-- The successful attempt of the `O8` run: response validated against the
response schema only, reconciled into the blank response skeleton. -/
theorem attempt_O8 : attempt O8 ⟨none, none⟩ spec8 hwPath "post" payload8 0
    = .ok (.obj [("text", .str "hi")]) := by
  unfold attempt
  rw [show O8.llm 0 payload8 = .ok respStr from rfl, bindOk]
  rw [show applyAfterHook ⟨none, none⟩ (removeMarkdownCodeMarkup respStr)
      = removeMarkdownCodeMarkup respStr from rfl, norm_respStr]
  simp only []
  rw [show validateData O8 spec8 respStr hwPath "post" .response = .ok () from by
    unfold validateData
    rw [show getSchemaPath spec8 hwPath "post" VKind.response = .ok textSchema from rfl,
      bindOk, if_neg (by decide),
      show O8.jsonParse respStr = .ok respVal from by simp [O8, jp0], bindOk,
      if_pos (by decide)]
    rfl]
  rw [bindOk,
    show getSchemaPath spec8 hwPath "post" VKind.response = .ok textSchema from rfl,
    bindOk,
    show O8.jsonParse respStr = .ok respVal from by simp [O8, jp0], bindOk]
  show deepMerge (generateBlankJson textSchema) respVal = _
  rw [blank_textSchema, show respVal = .obj [("text", .str "hi")] from rfl, merge_text]

/-- The successful third attempt of the `O9` run (the hook-iterated payload is
irrelevant to `O9`'s model oracle). -/
theorem attempt_O9 : attempt O9 ⟨some h9, none⟩ spec8 hwPath "post" (payIter h9 d9 2) 2
    = .ok (.obj [("text", .str "hi")]) := by
  unfold attempt
  rw [show O9.llm 2 (payIter h9 d9 2) = .ok respStr from rfl, bindOk]
  rw [show applyAfterHook ⟨some h9, none⟩ (removeMarkdownCodeMarkup respStr)
      = removeMarkdownCodeMarkup respStr from rfl, norm_respStr]
  simp only []
  rw [show validateData O9 spec8 respStr hwPath "post" .response = .ok () from by
    unfold validateData
    rw [show getSchemaPath spec8 hwPath "post" VKind.response = .ok textSchema from rfl,
      bindOk, if_neg (by decide),
      show O9.jsonParse respStr = .ok respVal from by simp [O9, jp0], bindOk,
      if_pos (by decide)]
    rfl]
  rw [bindOk,
    show getSchemaPath spec8 hwPath "post" VKind.response = .ok textSchema from rfl,
    bindOk,
    show O9.jsonParse respStr = .ok respVal from by simp [O9, jp0], bindOk]
  show deepMerge (generateBlankJson textSchema) respVal = _
  rw [blank_textSchema, show respVal = .obj [("text", .str "hi")] from rfl, merge_text]

/-- Merging a source array into a truthy object slot recurses into the
existing object: the element lands under its decimal index key. -/
theorem merge_mismatched_kind :
    deepMerge (.obj [("a", .obj [])]) (.obj [("a", .arr [.num 1])])
      = .ok (.obj [("a", .obj [("0", .num 1)])]) := by
  rw [deepMerge_composite (by rfl)]
  show mergeEntries (.obj [("a", .obj [])]) [("a", .arr [.num 1])] = _
  rw [mergeEntries_cons, if_pos (show (JsVal.arr [.num 1]).isComposite = true from rfl)]
  rw [show (if (jsGet (.obj [("a", .obj [])]) "a").truthy
        then jsGet (.obj [("a", .obj [])]) "a"
        else emptyLike (.arr [.num 1])) = JsVal.obj [] from rfl]
  rw [show jsEntries (.arr [.num 1]) = [(natKey 0, .num 1)] from rfl]
  rw [show mergeEntries (JsVal.obj []) [(natKey 0, .num 1)]
      = .ok (.obj [(natKey 0, .num 1)]) from by
    rw [mergeEntries_cons, if_neg (by decide)]
    show mergeEntries (.obj [(natKey 0, .num 1)]) [] = _
    rw [mergeEntries_nil]]
  show mergeEntries (.obj [("a", .obj [(natKey 0, .num 1)])]) [] = _
  rw [mergeEntries_nil, natKey_zero]

/-- A present-but-falsy slot is replaced by a fresh placeholder. -/
theorem merge_falsy_slot :
    deepMerge (.obj [("a", .num 0)]) (.obj [("a", .obj [("b", .num 1)])])
      = .ok (.obj [("a", .obj [("b", .num 1)])]) := by
  rw [deepMerge_composite (by rfl)]
  show mergeEntries (.obj [("a", .num 0)]) [("a", .obj [("b", .num 1)])] = _
  rw [mergeEntries_cons, if_pos (show (JsVal.obj [("b", .num 1)]).isComposite = true from rfl)]
  rw [show (if (jsGet (.obj [("a", .num 0)]) "a").truthy
        then jsGet (.obj [("a", .num 0)]) "a"
        else emptyLike (.obj [("b", .num 1)])) = JsVal.obj [] from rfl]
  rw [show jsEntries (.obj [("b", .num 1)]) = [("b", .num 1)] from rfl]
  rw [show mergeEntries (JsVal.obj []) [("b", JsVal.num 1)]
      = .ok (.obj [("b", .num 1)]) from by
    rw [mergeEntries_cons, if_neg (by decide)]
    show mergeEntries (.obj [("b", .num 1)]) [] = _
    rw [mergeEntries_nil]]
  show mergeEntries (.obj [("a", .obj [("b", .num 1)])]) [] = _
  rw [mergeEntries_nil]

/-- Evaluation of the recursive merge for the `C7` witness instance. -/
theorem merge_arr_into_empty :
    mergeEntries (if (jsGet (.obj [("a", .obj []), ("keep", .str "old")]) "a").truthy
        then jsGet (.obj [("a", .obj []), ("keep", .str "old")]) "a"
        else emptyLike (.arr [.num 1])) (jsEntries (.arr [.num 1]))
      = .ok (.obj [(natKey 0, .num 1)]) := by
  rw [show (if (jsGet (.obj [("a", .obj []), ("keep", .str "old")]) "a").truthy
        then jsGet (.obj [("a", .obj []), ("keep", .str "old")]) "a"
        else emptyLike (.arr [.num 1])) = JsVal.obj [] from rfl]
  rw [show jsEntries (.arr [.num 1]) = [(natKey 0, .num 1)] from rfl]
  rw [mergeEntries_cons, if_neg (by decide)]
  show mergeEntries (.obj [(natKey 0, .num 1)]) [] = _
  rw [mergeEntries_nil]

/-! ## The claims -/

/-- C1 counterexample: the fenced-block alternative of the replacement regex
carries no capture group, so `$1` is empty for it and a whole fenced block is
deleted — normalizing the fenced example of the claim yields `""`, not the
inner JSON text the claim promises. -/
theorem C1_counterexample :
    removeMarkdownCodeMarkup "```json\n\x7b\"a\":1\x7d\n```" = ""
    ∧ "" ≠ "\x7b\"a\":1\x7d" :=
  ⟨norm_fenced, by decide⟩

/-- C1 (amended): the normalizer deletes fenced code blocks outright (their
inner content included) and unwraps inline code spans: normalizing the fenced
example yields `""`, normalizing an inline span keeps its inner text, and a
bare pair of backticks normalizes to the empty string. -/
theorem C1_markdown_stripping :
    removeMarkdownCodeMarkup "```json\n\x7b\"a\":1\x7d\n```" = ""
    ∧ removeMarkdownCodeMarkup "`x`" = "x"
    ∧ removeMarkdownCodeMarkup "``" = "" :=
  ⟨norm_fenced, norm_inline, norm_ticks⟩

/-- C2 counterexample: the empty object conforms to the hello-world response
schema (JSON Schema makes declared properties optional), yet merging it into
the blank skeleton returns the skeleton `\x7b"text":""\x7d`, which is not
value-equal to the merged value `\x7b\x7d` — blank/merge totality fails for
conforming-but-incomplete values. -/
theorem C2_counterexample :
    conformsTo textSchema (JsVal.obj []) = true
    ∧ deepMerge (generateBlankJson textSchema) (JsVal.obj [])
        = .ok (.obj [("text", .str "")])
    ∧ valueEq (.obj [("text", .str "")]) (JsVal.obj []) = false := by
  refine ⟨conformsTo_textSchema_empty, ?_, by decide⟩
  rw [blank_textSchema, deepMerge_composite (by rfl)]
  show mergeEntries (.obj [("text", .str "")]) [] = _
  rw [mergeEntries_nil]

/-- C2 (amended): blank/merge totality holds for the composite-typed schemas
the reconciler is given and the conforming values that are additionally
COMPLETE for the schema (every declared property present recursively, arrays
non-empty when a truthy `items` is declared): the merge then succeeds and its
result is value-equal to the merged value. -/
theorem C2_blank_merge_totality (S V : JsVal)
    (hwS : wfSchema S = true) (hwV : wfVal V = true) (hct : compositeTyped S = true)
    (hcf : conformsTo S V = true) (hcp : completeFor S V = true) :
    ∃ W, deepMerge (generateBlankJson S) V = .ok W ∧ valueEq W V = true :=
  deepMerge_blank_conforming_complete S V hwS hwV hct hcf hcp

/-- C2 witness: the amended totality at the hello-world response schema and the
complete conforming value `\x7b"text":"hi"\x7d`. -/
theorem C2_blank_merge_totality_witness :
    ∃ W, deepMerge (generateBlankJson textSchema) (.obj [("text", .str "hi")]) = .ok W
      ∧ valueEq W (.obj [("text", .str "hi")]) = true :=
  C2_blank_merge_totality textSchema (.obj [("text", .str "hi")])
    wfSchema_textSchema (by decide) (by decide)
    conformsTo_textSchema_hi completeFor_textSchema_hi

/-- C4: with every attempt failing, the orchestrator makes the initial attempt
plus `MAX_RETRY_ATTEMPTS` retries — attempts `0` through `3`, four in total —
and then rejects with the error of the last attempt, re-surfaced verbatim. -/
theorem C4_retry_budget (O : Oracles) (g : Option (String → String)) (spec : JsVal)
    (path method : String) (dfs : List (String × JsVal)) (es : Nat → String) (sl : JsVal)
    (hex : extractRelevantSpec spec path method = .ok sl)
    (hatt : ∀ k, k ≤ MAX_RETRY_ATTEMPTS →
      attempt O ⟨none, g⟩ spec path method (.obj dfs) k = .error (es k)) :
    processRequest O ⟨none, g⟩ spec path method (.obj dfs) 0
      = .error (es MAX_RETRY_ATTEMPTS) :=
  processRequest_exhaust_from O g spec path method dfs es sl hex MAX_RETRY_ATTEMPTS 0 rfl
    (fun k _ hk2 => hatt k hk2)

/-- C4 witness: the model oracle failing attempt `k` with message `natKey k`;
the surfaced error is that of attempt `3`, the fourth. -/
theorem C4_retry_budget_witness :
    processRequest O4 ⟨none, none⟩ spec8 hwPath "post" (.obj [("bogus", .num 1)]) 0
      = .error (natKey MAX_RETRY_ATTEMPTS) :=
  C4_retry_budget O4 none spec8 hwPath "post" [("bogus", .num 1)] natKey _ rfl
    (fun k _ => attempt_llm_error rfl)

/-- C6: `generateBlankJson` returns the type-appropriate empty instance: every
declared property blanked for `"object"` (and `\x7b\x7d` when no truthy
`properties` is declared), a one-element array of the blanked item for
`"array"` with truthy `items` and `[]` otherwise, `""` for `"string"`, `0` for
`"number"` and `"integer"`, `false` for `"boolean"`, and `null` for every
other `type`, the absent one included. -/
theorem C6_blank_shapes :
    (∀ fields : List (String × JsVal), jsGet (.obj fields) "type" = .str "object" →
      (jsGet (.obj fields) "properties").truthy = true →
      generateBlankJson (.obj fields)
        = .obj ((jsEntries (jsGet (.obj fields) "properties")).map
            (fun p => (p.1, generateBlankJson p.2))))
    ∧ (∀ fields : List (String × JsVal), jsGet (.obj fields) "type" = .str "object" →
      (jsGet (.obj fields) "properties").truthy = false →
      generateBlankJson (.obj fields) = .obj [])
    ∧ (∀ fields : List (String × JsVal), jsGet (.obj fields) "type" = .str "array" →
      (jsGet (.obj fields) "items").truthy = true →
      generateBlankJson (.obj fields) = .arr [generateBlankJson (jsGet (.obj fields) "items")])
    ∧ (∀ fields : List (String × JsVal), jsGet (.obj fields) "type" = .str "array" →
      (jsGet (.obj fields) "items").truthy = false →
      generateBlankJson (.obj fields) = .arr [])
    ∧ (∀ fields : List (String × JsVal), jsGet (.obj fields) "type" = .str "string" →
      generateBlankJson (.obj fields) = .str "")
    ∧ (∀ fields : List (String × JsVal), jsGet (.obj fields) "type" = .str "number" →
      generateBlankJson (.obj fields) = .num 0)
    ∧ (∀ fields : List (String × JsVal), jsGet (.obj fields) "type" = .str "integer" →
      generateBlankJson (.obj fields) = .num 0)
    ∧ (∀ fields : List (String × JsVal), jsGet (.obj fields) "type" = .str "boolean" →
      generateBlankJson (.obj fields) = .bool false)
    ∧ (∀ (fields : List (String × JsVal)) (t : JsVal), jsGet (.obj fields) "type" = t →
      t ≠ .str "object" → t ≠ .str "array" → t ≠ .str "string" → t ≠ .str "number" →
      t ≠ .str "integer" → t ≠ .str "boolean" →
      generateBlankJson (.obj fields) = .null) :=
  ⟨fun _ ht hp => generateBlankJson_type_object ht hp,
   fun _ ht hp => generateBlankJson_type_object_falsy ht hp,
   fun _ ht hi => generateBlankJson_type_array ht hi,
   fun _ ht hi => generateBlankJson_type_array_falsy ht hi,
   fun _ ht => generateBlankJson_type_string ht,
   fun _ ht => generateBlankJson_type_number ht,
   fun _ ht => generateBlankJson_type_integer ht,
   fun _ ht => generateBlankJson_type_boolean ht,
   fun _ _ ht h1 h2 h3 h4 h5 h6 => generateBlankJson_type_other ht h1 h2 h3 h4 h5 h6⟩

/-- C6 witness: each blank shape at a concrete schema node. -/
theorem C6_blank_shapes_witness :
    generateBlankJson textSchema
      = .obj [("text", generateBlankJson (.obj [("type", .str "string")]))]
    ∧ generateBlankJson (.obj [("type", .str "object")]) = .obj []
    ∧ generateBlankJson (.obj [("type", .str "array"),
        ("items", .obj [("type", .str "number")])])
      = .arr [generateBlankJson (.obj [("type", .str "number")])]
    ∧ generateBlankJson (.obj [("type", .str "array")]) = .arr []
    ∧ generateBlankJson (.obj [("type", .str "string")]) = .str ""
    ∧ generateBlankJson (.obj [("type", .str "number")]) = .num 0
    ∧ generateBlankJson (.obj [("type", .str "integer")]) = .num 0
    ∧ generateBlankJson (.obj [("type", .str "boolean")]) = .bool false
    ∧ generateBlankJson (.obj []) = .null :=
  ⟨C6_blank_shapes.1 _ rfl rfl,
   C6_blank_shapes.2.1 _ rfl rfl,
   C6_blank_shapes.2.2.1 _ rfl rfl,
   C6_blank_shapes.2.2.2.1 _ rfl rfl,
   C6_blank_shapes.2.2.2.2.1 _ rfl,
   C6_blank_shapes.2.2.2.2.2.1 _ rfl,
   C6_blank_shapes.2.2.2.2.2.2.1 _ rfl,
   C6_blank_shapes.2.2.2.2.2.2.2.1 _ rfl,
   C6_blank_shapes.2.2.2.2.2.2.2.2 _ .undef rfl (by decide) (by decide) (by decide)
     (by decide) (by decide) (by decide)⟩

/-- C10: a `JSON.parse` failure of a string payload (caller-supplied or
produced by the pre-prompt hook) rejects the request with the parse error
before the retry-guarded region: the result is the same for EVERY model oracle
and validator — no model call can influence it — and at every `retryCount`,
so no retry attempt is consumed. -/
theorem C10_parse_error_before_retries
    (jp : String → Except String JsVal) (hooks : Hooks) (spec : JsVal)
    (path method : String) (data : JsVal) (s e : String)
    (hh : applyBeforeHook hooks data = .str s)
    (hp : jp s = .error e) :
    ∀ (L : Nat → JsVal → Except String String) (A : JsVal → JsVal → Bool) (r : Nat),
      processRequest ⟨L, jp, A⟩ hooks spec path method data r = .error e :=
  fun _ _ _ => processRequest_parse_error hh hp

/-- C10 witness: a hook returning a non-JSON string rejects immediately with
the parse error under an always-succeeding model oracle. -/
theorem C10_parse_error_before_retries_witness :
    processRequest ⟨fun _ _ => .ok respStr, fun _ => .error "Unexpected token", fun _ _ => true⟩
      ⟨some (fun _ => .str "notjson"), none⟩ spec8 hwPath "post" (JsVal.obj []) 0
      = .error "Unexpected token" :=
  C10_parse_error_before_retries (fun _ => .error "Unexpected token")
    ⟨some (fun _ => .str "notjson"), none⟩ spec8 hwPath "post" (JsVal.obj [])
    "notjson" "Unexpected token" rfl rfl (fun _ _ => .ok respStr) (fun _ _ => true) 0

/-- C3 counterexample: with the `200` response schema absent from `spec3` and a
model chain that answers attempt `0` but is down on the retries, the caller
receives the model failure of the LAST retry, not the schema-not-found message
raised on attempt `0` — the schema-not-found error was retried, and retry
attempts were consumed by it. -/
theorem C3_counterexample :
    processRequest O3 ⟨none, none⟩ spec3 hwPath "post" (.obj [("text", .str "John")]) 0
      = .error "model down"
    ∧ "model down" ≠ "Schema not found for response in " ++ jsToUpper "post" ++ " " ++ hwPath := by
  refine ⟨?_, by decide⟩
  have key : ∀ k, 0 ≤ k → k ≤ MAX_RETRY_ATTEMPTS →
      attempt O3 ⟨none, none⟩ spec3 hwPath "post" (.obj [("text", .str "John")]) k
        = .error (if k = 0
            then "Schema not found for response in " ++ jsToUpper "post" ++ " " ++ hwPath
            else "model down") := by
    intro k _ _
    cases k with
    | zero => exact attempt_schema_not_found rfl rfl rfl
    | succ k => exact attempt_llm_error rfl
  exact processRequest_exhaust_from O3 none spec3 hwPath "post" [("text", .str "John")]
    _ _ rfl MAX_RETRY_ATTEMPTS 0 rfl key

/-- C3 (amended): a missing `200`-response schema is NOT surfaced immediately:
`validateData`'s schema-not-found error is thrown inside the retried `try`
block, so the orchestrator consumes its whole retry budget on it and the
caller sees the error of the LAST attempt — with a model chain that answers
attempt `0` and fails the retries with `e'`, the result is `e'`, not the
schema-not-found message of attempt `0`. -/
theorem C3_schema_not_found_is_retried
    (O : Oracles) (g : Option (String → String)) (spec : JsVal) (path method : String)
    (dfs : List (String × JsVal)) (sl u : JsVal) (raw e' : String)
    (hex : extractRelevantSpec spec path method = .ok sl)
    (h200 : getSchemaPath spec path method VKind.response = .ok u)
    (hu : u.truthy = false)
    (h0 : O.llm 0 (.obj dfs) = .ok raw)
    (hk : ∀ k, 1 ≤ k → k ≤ MAX_RETRY_ATTEMPTS → O.llm k (.obj dfs) = .error e') :
    processRequest O ⟨none, g⟩ spec path method (.obj dfs) 0 = .error e' := by
  have key : ∀ k, 0 ≤ k → k ≤ MAX_RETRY_ATTEMPTS →
      attempt O ⟨none, g⟩ spec path method (.obj dfs) k
        = .error (if k = 0
            then "Schema not found for response in " ++ jsToUpper method ++ " " ++ path
            else e') := by
    intro k _ hk2
    cases k with
    | zero => exact attempt_schema_not_found h0 h200 hu
    | succ k => exact attempt_llm_error (hk (k + 1) (by omega) hk2)
  exact processRequest_exhaust_from O g spec path method dfs _ sl hex
    MAX_RETRY_ATTEMPTS 0 rfl key

/-- C3 witness: the amended statement at the concrete `spec3` / `O3` run. -/
theorem C3_schema_not_found_is_retried_witness :
    processRequest O3 ⟨none, none⟩ spec3 hwPath "post" (.obj [("q", .num 7)]) 0
      = .error "model down" :=
  C3_schema_not_found_is_retried O3 none spec3 hwPath "post" [("q", .num 7)]
    _ (.undef) "x" "model down" rfl rfl rfl rfl
    (fun k h1 _ => by
      cases k with
      | zero => omega
      | succ k => rfl)

/-- C5: the Operation Slice of a dereferenced document containing path `P`
with method `M` holds exactly the one path entry `P` with exactly the one
method `M`, next to the document's `openapi`, `info` and `components`; for a
missing path or a missing method the slicer throws the not-found error, and
`processRequest` surfaces that error unchanged at every `retryCount` — before
any model attempt, hence never retried. -/
theorem C5_slicing_correct (spec : JsVal) (pfs : List (String × JsVal)) (path method : String)
    (hn : spec.isNullish = false) (hp : jsGet spec "paths" = .obj pfs) :
    (∀ mfs ms, List.lookup path pfs = some (.obj mfs) → List.lookup method mfs = some ms →
      ms.truthy = true →
      extractRelevantSpec spec path method
        = .ok (.obj [("openapi", jsGet spec "openapi"), ("info", jsGet spec "info"),
            ("paths", .obj [(path, .obj [(method, ms)])]),
            ("components", jsGet spec "components")]))
    ∧ (List.lookup path pfs = none →
      extractRelevantSpec spec path method
        = .error ("Path or method not found in OpenAPI specification: "
            ++ path ++ ", " ++ method))
    ∧ (∀ mfs, List.lookup path pfs = some (.obj mfs) → List.lookup method mfs = none →
      extractRelevantSpec spec path method
        = .error ("Path or method not found in OpenAPI specification: "
            ++ path ++ ", " ++ method))
    ∧ (∀ (O : Oracles) (g : Option (String → String)) (dfs : List (String × JsVal))
        (e : String) (r : Nat),
      extractRelevantSpec spec path method = .error e →
      processRequest O ⟨none, g⟩ spec path method (.obj dfs) r = .error e) :=
  ⟨fun _ ms h1 h2 h3 => extractRelevantSpec_found hn hp h1 h2 h3,
   fun h1 => extractRelevantSpec_missing_path hn hp h1,
   fun _ h1 h2 => extractRelevantSpec_missing_method hn hp h1 h2,
   fun _ _ _ _ _ hex => processRequest_extract_error rfl rfl hex⟩

/-- C5 witness: the slice of the hello-world document, the not-found error for
a missing path and for a missing method, and the immediate surfacing of the
error through `processRequest` at the exhausted retry count. -/
theorem C5_slicing_correct_witness :
    extractRelevantSpec spec8 hwPath "post"
      = .ok (.obj [("openapi", .str "3.1.0"), ("info", .obj []),
          ("paths", .obj [(hwPath, .obj [("post", op8)])]), ("components", .undef)])
    ∧ extractRelevantSpec spec8 "/nope" "post"
      = .error ("Path or method not found in OpenAPI specification: /nope, post")
    ∧ extractRelevantSpec spec8 hwPath "get"
      = .error ("Path or method not found in OpenAPI specification: "
          ++ hwPath ++ ", get")
    ∧ processRequest O8 ⟨none, none⟩ spec8 "/nope" "post" (JsVal.obj []) MAX_RETRY_ATTEMPTS
      = .error ("Path or method not found in OpenAPI specification: /nope, post") := by
  refine ⟨?_, ?_, ?_, ?_⟩
  · exact (C5_slicing_correct spec8 [(hwPath, .obj [("post", op8)])] hwPath "post"
      rfl rfl).1 _ op8 rfl rfl rfl
  · exact (C5_slicing_correct spec8 [(hwPath, .obj [("post", op8)])] "/nope" "post"
      rfl rfl).2.1 rfl
  · exact (C5_slicing_correct spec8 [(hwPath, .obj [("post", op8)])] hwPath "get"
      rfl rfl).2.2.1 [("post", op8)] rfl rfl
  · exact (C5_slicing_correct spec8 [(hwPath, .obj [("post", op8)])] "/nope" "post"
      rfl rfl).2.2.2 O8 none [] _ MAX_RETRY_ATTEMPTS
      ((C5_slicing_correct spec8 [(hwPath, .obj [("post", op8)])] "/nope" "post"
        rfl rfl).2.1 rfl)

/-- C7 counterexample: the placeholder test is `!target[key]` and no kind
matching happens — merging a source ARRAY into a slot holding a truthy OBJECT
recurses into the existing object (the element lands under its decimal index
key, no array placeholder of the matching kind appears), and a
present-but-falsy slot IS replaced by a fresh placeholder although its key is
not absent. -/
theorem C7_counterexample :
    deepMerge (.obj [("a", .obj [])]) (.obj [("a", .arr [.num 1])])
      = .ok (.obj [("a", .obj [("0", .num 1)])])
    ∧ deepMerge (.obj [("a", .num 0)]) (.obj [("a", .obj [("b", .num 1)])])
      = .ok (.obj [("a", .obj [("b", .num 1)])]) :=
  ⟨merge_mismatched_kind, merge_falsy_slot⟩

/-- C7 (amended): for a merge of object `source` into object `target`, per key
of `source`: a composite source value is merged recursively into the EXISTING
target slot whenever that slot is truthy (whatever its kind), and into a fresh
empty composite of the SOURCE value's kind when the slot is falsy (absent or
present-but-falsy); a non-composite source value (null and primitives
included) overwrites the slot; keys of `target` absent from `source` keep
their prior value. -/
theorem C7_deep_merge_per_key (tfs sfs : List (String × JsVal))
    (hnd : (sfs.map Prod.fst).Nodup)
    (hrec : ∀ k sv, (k, sv) ∈ sfs → sv.isComposite = true →
      ∃ w, mergeEntries (if (jsGet (.obj tfs) k).truthy then jsGet (.obj tfs) k
            else emptyLike sv) (jsEntries sv) = .ok w) :
    ∃ rfs, deepMerge (.obj tfs) (.obj sfs) = .ok (.obj rfs) ∧
      (∀ k, k ∉ sfs.map Prod.fst → List.lookup k rfs = List.lookup k tfs) ∧
      (∀ k sv, (k, sv) ∈ sfs → sv.isComposite = true →
        ∃ w, mergeEntries (if (jsGet (.obj tfs) k).truthy then jsGet (.obj tfs) k
              else emptyLike sv) (jsEntries sv) = .ok w ∧ List.lookup k rfs = some w) ∧
      (∀ k sv, (k, sv) ∈ sfs → sv.isComposite = false → List.lookup k rfs = some sv) := by
  obtain ⟨rfs, h1, h2, h3, h4, _, _, _⟩ := mergeEntries_obj_char sfs tfs hnd hrec
  exact ⟨rfs, by rw [deepMerge_composite (by rfl)]; exact h1, h2, h3, h4⟩

/-- C7 witness: merging a source with an array value (into a truthy object
slot) and a null value into a two-key target. -/
theorem C7_deep_merge_per_key_witness :
    ∃ rfs, deepMerge (.obj [("a", .obj []), ("keep", .str "old")])
        (.obj [("a", .arr [.num 1]), ("x", .null)]) = .ok (.obj rfs) ∧
      (∀ k, k ∉ ["a", "x"] → List.lookup k rfs
        = List.lookup k [("a", JsVal.obj []), ("keep", JsVal.str "old")]) ∧
      (∀ k sv, (k, sv) ∈ [("a", JsVal.arr [.num 1]), ("x", JsVal.null)] →
        sv.isComposite = true →
        ∃ w, mergeEntries (if (jsGet (.obj [("a", JsVal.obj []), ("keep", JsVal.str "old")]) k).truthy
              then jsGet (.obj [("a", JsVal.obj []), ("keep", JsVal.str "old")]) k
              else emptyLike sv) (jsEntries sv) = .ok w ∧ List.lookup k rfs = some w) ∧
      (∀ k sv, (k, sv) ∈ [("a", JsVal.arr [.num 1]), ("x", JsVal.null)] →
        sv.isComposite = false → List.lookup k rfs = some sv) :=
  C7_deep_merge_per_key [("a", .obj []), ("keep", .str "old")]
    [("a", .arr [.num 1]), ("x", .null)] (by decide)
    (fun k sv hmem hc => by
      simp only [List.mem_cons, List.not_mem_nil, or_false, Prod.mk.injEq] at hmem
      rcases hmem with ⟨hk, hsv⟩ | ⟨hk, hsv⟩
      · subst hk; subst hsv
        exact ⟨.obj [(natKey 0, .num 1)], merge_arr_into_empty⟩
      · subst hsv
        simp [JsVal.isComposite] at hc)

/-- C8 counterexample: `O8`'s validator rejects every value against the
operation's request-body schema `rq8` — so had the caller's payload been
validated against it, the run could not succeed — yet `processRequest`
succeeds: the request payload is never validated. -/
theorem C8_counterexample :
    (∀ v, O8.ajvValidate rq8 v = false)
    ∧ getSchemaPath spec8 hwPath "post" VKind.request = .ok rq8
    ∧ processRequest O8 ⟨none, none⟩ spec8 hwPath "post" payload8 0
        = .ok (.obj [("text", .str "hi")]) :=
  ⟨fun v => show (rq8 == textSchema) = false from by decide, rfl,
   processRequest_first_ok rfl attempt_O8⟩

/-- C8 (amended): no request-payload validation happens: the pipeline's result
is invariant under ARBITRARY replacement of the validator's behaviour on any
schema value other than the 200-response schema — in particular on the
operation's request-body schema; only the response validation can influence
the outcome. -/
theorem C8_only_response_validated {O : Oracles} {hooks : Hooks}
    {f : JsVal → JsVal → Bool} {spec : JsVal} {path method : String} {rs os : JsVal}
    (hresp : getSchemaPath spec path method VKind.response = .ok os)
    (hneq : os ≠ rs) (data : JsVal) (r : Nat) :
    processRequest (swapValidator O rs f) hooks spec path method data r
      = processRequest O hooks spec path method data r :=
  processRequest_validator_swap hresp hneq (MAX_RETRY_ATTEMPTS + 1) r data (by omega)

/-- C8 witness: replacing the validator's behaviour on the request-body schema
`rq8` by constant rejection does not change the hello-world run. -/
theorem C8_only_response_validated_witness :
    processRequest (swapValidator O8 rq8 (fun _ _ => false)) ⟨none, none⟩
        spec8 hwPath "post" payload8 0
      = processRequest O8 ⟨none, none⟩ spec8 hwPath "post" payload8 0 :=
  by
  exact C8_only_response_validated
    (show getSchemaPath spec8 hwPath "post" VKind.response = .ok textSchema from rfl)
    (show textSchema ≠ rq8 from by decide) payload8 0

/-- C9: with a registered pre-prompt hook `h`, every retry applies `h` again to
the retry payload derived (by the no-op tail-off copy) from the previous
attempt's already-hooked payload: attempt `k` is invoked on `payIter h d k` —
`k + 1` cumulative applications of `h` interleaved with the tail-off copies —
and the first success is returned.  A single application would instead send
`h d` on every attempt. -/
theorem C9_hook_reapplied_each_retry
    (O : Oracles) (g : Option (String → String)) (h : JsVal → JsVal)
    (spec : JsVal) (path method : String) (sl : JsVal)
    (hns : ∀ w, (h w).isStr = false)
    (hex : extractRelevantSpec spec path method = .ok sl)
    (n : Nat) (d v : JsVal) (es : Nat → String)
    (hn : n ≤ MAX_RETRY_ATTEMPTS)
    (hfail : ∀ k, k < n →
      attempt O ⟨some h, g⟩ spec path method (payIter h d k) k = .error (es k))
    (hok : attempt O ⟨some h, g⟩ spec path method (payIter h d n) n = .ok v) :
    processRequest O ⟨some h, g⟩ spec path method d 0 = .ok v := by
  refine processRequest_hook_iteration O g h spec path method hns sl hex n d 0 v es
    (by omega) ?_ ?_
  · intro k hk
    rw [Nat.zero_add]
    exact hfail k hk
  · rw [Nat.zero_add]
    exact hok

/-- C9 witness: the wrapping hook `h9` with a model oracle that is down on
attempts `0` and `1`; the successful attempt `2` is invoked on
`payIter h9 d9 2`, the three-fold cumulative application. -/
theorem C9_hook_reapplied_each_retry_witness :
    processRequest O9 ⟨some h9, none⟩ spec8 hwPath "post" d9 0
      = .ok (.obj [("text", .str "hi")]) :=
  C9_hook_reapplied_each_retry O9 none h9 spec8 hwPath "post" _
    (fun _ => rfl) rfl 2 d9 (.obj [("text", .str "hi")]) (fun _ => "model down")
    (by decide)
    (fun k hk => attempt_llm_error (show (if k < 2 then Except.error "model down"
        else Except.ok respStr) = Except.error "model down" from if_pos hk))
    attempt_O9
